import Mathlib

/-!
# SwitchStr: matchers over string views

A shallow embedding of `include/SwitchStr/Matcher.hpp` and
`include/SwitchStr/SwitchStr.hpp` (namespace `swstr`).

* A `std::string_view` is the list of its characters.
* Matchers may have side effects (a lookup matcher writes through its `where`
  pointer, a test mock consumes its expectations), so every call of a matcher on
  a string is a state transformer over an ambient state `σ`:
  `σ → Bool × σ`.
* `std::size_t` values are natural numbers; `npos` is `2^64 - 1`.
-/

namespace swstr

/-- The type `std::string_view`: a finite sequence of `char`. -/
abbrev StringView := List Char

/-- The constant `std::string_view::npos`, i.e. `size_t(-1)` on a 64-bit target. -/
def npos : Nat := 2 ^ 64 - 1

/-- A call `x(str)` or `x.IsMatching(str)` returning `bool`, run in state `σ`. -/
abbrev Call (σ : Type) := StringView → σ → Bool × σ

/-- A conversion `std::string_view{m}`, run in state `σ`. -/
abbrev Conv (σ : Type) := σ → StringView × σ

/--
A matcher value, seen through the three expressions that `MatcherTraits` probes.
Each field is `none` when the expression is ill-formed for the matcher's type
(or its result is not convertible to `bool`), and otherwise holds what
evaluating the expression does. The record belongs to one expression naming the
matcher: `MatcherTraits<Matcher>` probes the deduced, cv-qualified type, so the
same object can give another record through a `const` reference (see
`MatcherObject`). State that a matcher changes lives in `σ`, outside the value.
-/
structure Matcher (σ : Type) where
  /-- The expression `m.IsMatching(std::string_view)`. -/
  method : Option (Call σ)
  /-- The expression `m(std::string_view)`. -/
  call : Option (Call σ)
  /-- The expression `std::string_view{m}`. -/
  conv : Option (Conv σ)

namespace MatcherTraits

variable {σ : Type}

/-- The trait `MatcherTraits<Matcher>::has_IsMatching`. -/
def has_IsMatching (m : Matcher σ) : Bool := m.method.isSome

/-- The trait `MatcherTraits<Matcher>::has_Operator`. -/
def has_Operator (m : Matcher σ) : Bool := m.call.isSome

/-- The trait `MatcherTraits<Matcher>::is_convertible`. -/
def is_convertible (m : Matcher σ) : Bool := m.conv.isSome

/-- The trait `MatcherTraits<Matcher>::is_valid`. -/
def is_valid (m : Matcher σ) : Bool :=
  has_IsMatching m || has_Operator m || is_convertible m

end MatcherTraits

section Dispatch

variable {σ : Type}

/--
The function `swstr::IsMatching(m, str)`. The `if constexpr` chain picks the
method, else the call operator, else the comparison with the converted string.
The last branch (`return false`) sits behind `StaticAssertIfInvalid()` and is
never part of a compiled program.
-/
def IsMatching (m : Matcher σ) (str : StringView) (st : σ) : Bool × σ :=
  match m.method with
  | some f => f str st
  | none =>
    match m.call with
    | some g => g str st
    | none =>
      match m.conv with
      | some c => (decide (str = (c st).1), (c st).2)
      | none => (false, st)

/-- A matcher that is only a callable (a lambda). -/
def lambda (g : Call σ) : Matcher σ := ⟨none, some g, none⟩

/-- A matcher that is only convertible to a string view: a string literal. -/
def literal (l : StringView) : Matcher σ := ⟨none, none, some (fun st => (l, st))⟩

/--
A matcher object of a type `M`, as `MatcherTraits` sees it through the two kinds
of expression that name it: `asNonConst` is the record for `M` and `M&`, the
caller's own expression; `asConst` is the record for `const M&`, where only the
const-qualified `IsMatching`, call operator and conversion are usable. A copy of
the object has the same type, hence the same two records.
-/
structure MatcherObject (σ : Type) where
  /-- The record of `MatcherTraits<M&>`. -/
  asNonConst : Matcher σ
  /-- The record of `MatcherTraits<const M&>`. -/
  asConst : Matcher σ

/--
An object whose record is the same through a `const` reference: a closure with a
non-mutable call operator (every matcher this library returns), a string
literal, a `MatcherMock`, an `AnyMatcher`.
-/
def MatcherObject.same (m : Matcher σ) : MatcherObject σ := ⟨m, m⟩

end Dispatch

/-! ## The `std::string_view` searches used by the lookup matchers

The four searches are library functions; they are modelled as scans over the
positions `0 .. size()` of the view, each position standing for the suffix that
starts there, and return `npos` when no position qualifies.
-/

namespace string_view

/-- The lowest position whose suffix satisfies `p`, scanning from the front. -/
def firstPos (p : StringView → Bool) : StringView → Option Nat
  | [] => if p [] then some 0 else none
  | c :: t => if p (c :: t) then some 0 else (firstPos p t).map (· + 1)

/-- The highest position whose suffix satisfies `p`: later positions are preferred. -/
def lastPos (p : StringView → Bool) : StringView → Option Nat
  | [] => if p [] then some 0 else none
  | c :: t =>
    match lastPos p t with
    | some j => some (j + 1)
    | none => if p (c :: t) then some 0 else none

/-- The suffix starts with a character of `v`. -/
def startsWithOneOf (v : StringView) : StringView → Bool
  | [] => false
  | c :: _ => v.contains c

/-- The call `str.find(v)`: lowest `xpos` with `str.substr(xpos, v.size()) == v`. -/
def find (str v : StringView) : Nat :=
  (firstPos (fun r => v.isPrefixOf r) str).getD npos

/-- The call `str.rfind(v)`: highest `xpos` with `str.substr(xpos, v.size()) == v`. -/
def rfind (str v : StringView) : Nat :=
  (lastPos (fun r => v.isPrefixOf r) str).getD npos

/-- The call `str.find_first_of(v)`: lowest `xpos` with `str[xpos]` among `v`. -/
def find_first_of (str v : StringView) : Nat :=
  (firstPos (startsWithOneOf v) str).getD npos

/-- The call `str.find_last_of(v)`: highest `xpos` with `str[xpos]` among `v`. -/
def find_last_of (str v : StringView) : Nat :=
  (lastPos (startsWithOneOf v) str).getD npos

/-- The call `str.find(c)`, defined as `str.find(string_view(&c, 1))`. -/
def find_char (str : StringView) (c : Char) : Nat := find str [c]

/-- The call `str.rfind(c)`, defined as `str.rfind(string_view(&c, 1))`. -/
def rfind_char (str : StringView) (c : Char) : Nat := rfind str [c]

/-- The call `str.find_first_of(c)`, defined as `str.find(c)`. -/
def find_first_of_char (str : StringView) (c : Char) : Nat := find_char str c

/-- The call `str.find_last_of(c)`, defined as `str.rfind(c)`. -/
def find_last_of_char (str : StringView) (c : Char) : Nat := rfind_char str c

end string_view

/-! ## Lookup matchers -/

/-- The type `std::variant<std::string_view, char>` of lookup patterns. -/
inductive Pattern where
  | sv (v : StringView)
  | ch (c : Char)

/-- The memory of `std::size_t` cells that position outputs point into. -/
abbrev Mem := Nat → Nat

namespace details

/--
The function `details::DoLookup(do_lookup, pattern, where)`. The generic lambda
`do_lookup` is a function on both alternatives of the pattern and `std::visit`
applies it to the active one; `where` is `none` for `nullptr` and otherwise the
address of the cell to write.
-/
def DoLookup (do_lookup : Pattern → Nat) (pattern : Pattern) (where_ : Option Nat)
    (mem : Mem) : Bool × Mem :=
  let pos := do_lookup pattern
  let found := decide (pos ≠ npos)
  match where_ with
  | some w => if found then (found, Function.update mem w pos) else (found, mem)
  | none => (found, mem)

end details

/-- The matcher `Contains(pattern, where)`. -/
def Contains (pattern : Pattern) (where_ : Option Nat) : Matcher Mem :=
  lambda fun str mem =>
    details.DoLookup
      (fun p => match p with
        | .sv v => string_view.find str v
        | .ch c => string_view.find_char str c)
      pattern where_ mem

/-- The matcher `ContainsR(pattern, where)`. -/
def ContainsR (pattern : Pattern) (where_ : Option Nat) : Matcher Mem :=
  lambda fun str mem =>
    details.DoLookup
      (fun p => match p with
        | .sv v => string_view.rfind str v
        | .ch c => string_view.rfind_char str c)
      pattern where_ mem

/-- The matcher `ContainsOneOf(pattern, where)`. -/
def ContainsOneOf (pattern : Pattern) (where_ : Option Nat) : Matcher Mem :=
  lambda fun str mem =>
    details.DoLookup
      (fun p => match p with
        | .sv v => string_view.find_first_of str v
        | .ch c => string_view.find_first_of_char str c)
      pattern where_ mem

/-- The matcher `ContainsOneOfR(pattern, where)`. -/
def ContainsOneOfR (pattern : Pattern) (where_ : Option Nat) : Matcher Mem :=
  lambda fun str mem =>
    details.DoLookup
      (fun p => match p with
        | .sv v => string_view.find_last_of str v
        | .ch c => string_view.find_last_of_char str c)
      pattern where_ mem

/-! ## Meta matchers -/

section Meta

variable {σ : Type}

/--
The matcher `DoNot(m)`: a lambda `[=]` holding a copy of `m`. The lambda is not
`mutable`, so inside its call operator the copy is const and
`IsMatching(m, str)` deduces `Matcher = const M&`: the dispatch runs on the
record `asConst` of the object.
-/
def DoNot (m : MatcherObject σ) : Matcher σ :=
  lambda fun str st => (!(IsMatching m.asConst str st).1, (IsMatching m.asConst str st).2)

/--
The matcher `AllOf(matchers...)`. The body is the unary left fold
`(... and IsMatching(matchers, str))`, that is `((I1 and I2) and I3) ...`: the
right operand of each `and` is evaluated only when the left one is true. The
fold over an empty pack is `true`. The lambda `[=]` is not `mutable`: `matchers`
are the records of the const copies it holds.
-/
def AllOf (matchers : List (Matcher σ)) : Matcher σ :=
  lambda fun str st =>
    match matchers with
    | [] => (true, st)
    | m :: rest =>
      rest.foldl (fun acc mi => if acc.1 then IsMatching mi str acc.2 else (false, acc.2))
        (IsMatching m str st)

/--
The matcher `AnyOf(matchers...)`. The body is the unary left fold
`(... or IsMatching(matchers, str))`: the right operand of each `or` is
evaluated only when the left one is false. The fold over an empty pack is
`false`. The lambda `[=]` is not `mutable`: `matchers` are the records of the
const copies it holds.
-/
def AnyOf (matchers : List (Matcher σ)) : Matcher σ :=
  lambda fun str st =>
    match matchers with
    | [] => (false, st)
    | m :: rest =>
      rest.foldl (fun acc mi => if acc.1 then (true, acc.2) else IsMatching mi str acc.2)
        (IsMatching m str st)

end Meta

/-! ## Observing invocations

The tests observe which children a combinator invokes with `MatcherMock`, a
method-shaped matcher that forwards every call to a recorder. `spy i m` plays
that part for an arbitrary matcher `m`: it evaluates `m` once and appends the
entry `(i, str, result)` to a call log kept next to the state.
-/

section Observe

variable {σ : Type}

/-- The call log: which child was invoked, on which string, with which result. -/
abbrev CallLog := List (Nat × StringView × Bool)

/-- A method-shaped matcher that forwards to `m` and records the call as child `i`. -/
def spy (i : Nat) (m : Matcher σ) : Matcher (σ × CallLog) :=
  ⟨some fun str st =>
      ((IsMatching m str st.1).1,
        ((IsMatching m str st.1).2, st.2 ++ [(i, str, (IsMatching m str st.1).1)])),
    none, none⟩

/-- The children `ms`, each recorded under its index in the list, counted from `j`. -/
def spies : Nat → List (Matcher σ) → List (Matcher (σ × CallLog))
  | _, [] => []
  | j, m :: ms => spy j m :: spies (j + 1) ms

end Observe

/-! ## Simple matchers -/

namespace string_view

/--
The call `str.substr(pos, n)`: the characters `[pos, pos + rlen)` with `rlen` the
smaller of `n` and `size() - pos`. The result `none` stands for the
`std::out_of_range` exception thrown when `pos > size()`.
-/
def substr (str : StringView) (pos n : Nat) : Option StringView :=
  if pos > str.length then none else some ((str.drop pos).take n)

end string_view

/-- The difference `a - b` of two `std::size_t` values: it wraps modulo `2^64`. -/
def size_sub (a b : Nat) : Nat := (a % 2 ^ 64 + 2 ^ 64 - b % 2 ^ 64) % 2 ^ 64

section Simple

variable {σ : Type}

/-- The matcher `NeverMatches()`. -/
def NeverMatches : Matcher σ := lambda fun _ st => (false, st)

/-- The matcher `AlwaysMatches()`. -/
def AlwaysMatches : Matcher σ := lambda fun _ st => (true, st)

/-- The matcher `Equals(match)`. -/
def Equals (match_ : StringView) : Matcher σ :=
  lambda fun str st => (decide (str = match_), st)

/--
The body of the lambda that `StartsWith(pfx)` returns, `pfx` being the source's
parameter `prefix`. The result `none` stands for an exception leaving the
`noexcept` body, which ends the program.
-/
def StartsWith.body (pfx str : StringView) : Option Bool :=
  if pfx.length > str.length then some false
  else (string_view.substr str 0 pfx.length).map fun r => decide (r = pfx)

/--
The matcher `StartsWith(pfx)`. The body never yields `none` (see
`StartsWith_body_total`), so the default given to `getD` is never used.
-/
def StartsWith (pfx : StringView) : Matcher σ :=
  lambda fun str st => ((StartsWith.body pfx str).getD false, st)

/--
The body of the lambda that `EndsWith(suffix)` returns. The start index is the
`std::size_t` difference of the two sizes. The result `none` stands for an
exception leaving the `noexcept` body, which ends the program.
-/
def EndsWith.body (suffix str : StringView) : Option Bool :=
  if suffix.length > str.length then some false
  else (string_view.substr str (size_sub str.length suffix.length) suffix.length).map
    fun r => decide (r = suffix)

/--
The matcher `EndsWith(suffix)`. The body never yields `none` (see
`EndsWith_body_total`), so the default given to `getD` is never used.
-/
def EndsWith (suffix : StringView) : Matcher σ :=
  lambda fun str st => ((EndsWith.body suffix str).getD false, st)

end Simple

/-! ## Type erasure

A `std::unique_ptr` owns its pointee, so it is modelled by an `Option`: `none` is the
null pointer. Operations that dereference the pointer return `none` when it is null.
-/

/--
The class `AnyMatcher::StrMatcherWrapper<InnerMatcher>`, the one implementation of
`StrMatcherInterface`. `InnerMatcher` is the type deduced for the constructor
argument, so the member `m_matcher` is an object for an rvalue argument and a
reference for an lvalue argument; in both cases it is given by the matcher it
evaluates as.
-/
structure StrMatcherWrapper (σ : Type) where
  /-- The member `m_matcher`. -/
  m_matcher : Matcher σ

/-- The class `AnyMatcher`: its only member is the owning pointer `m_interface`. -/
structure AnyMatcher (σ : Type) where
  /-- The member `m_interface`, `none` when null. -/
  m_interface : Option (StrMatcherWrapper σ)

section TypeErasure

variable {σ : Type}

/-- The method `StrMatcherWrapper::Clone()`: a new wrapper copy-constructed from this one. -/
def StrMatcherWrapper.Clone (w : StrMatcherWrapper σ) : StrMatcherWrapper σ :=
  ⟨w.m_matcher⟩

/-- The method `StrMatcherWrapper::IsMatching(str)`: the free function on `m_matcher`. -/
def StrMatcherWrapper.IsMatching (w : StrMatcherWrapper σ) (str : StringView) (st : σ) :
    Bool × σ :=
  swstr.IsMatching w.m_matcher str st

/-- The constructor `AnyMatcher(Matcher&& m)`. -/
def AnyMatcher.ofMatcher (m : Matcher σ) : AnyMatcher σ := ⟨some ⟨m⟩⟩

/-- The default constructor `AnyMatcher()`, which delegates to `AnyMatcher(NeverMatches())`. -/
def AnyMatcher.new : AnyMatcher σ := AnyMatcher.ofMatcher NeverMatches

/-- The copy constructor `AnyMatcher(const AnyMatcher& other)`; it dereferences `other`. -/
def AnyMatcher.copy (other : AnyMatcher σ) : Option (AnyMatcher σ) :=
  other.m_interface.map fun w => ⟨some w.Clone⟩

/-- The copy assignment `self = other`; it dereferences `other`. The result is the new `self`. -/
def AnyMatcher.copyAssign (_self other : AnyMatcher σ) : Option (AnyMatcher σ) :=
  other.m_interface.map fun w => ⟨some w.Clone⟩

/--
The move constructor `AnyMatcher(AnyMatcher&& other)`: the new object takes the
pointer and `other` is left null. The result is the new object and `other` afterwards.
-/
def AnyMatcher.move (other : AnyMatcher σ) : AnyMatcher σ × AnyMatcher σ :=
  (⟨other.m_interface⟩, ⟨none⟩)

/--
The move assignment `self = std::move(other)` between two distinct objects: `self`
takes the pointer, its old payload is destroyed and `other` is left null. The
result is the new `self` and `other` afterwards.
-/
def AnyMatcher.moveAssign (_self other : AnyMatcher σ) : AnyMatcher σ × AnyMatcher σ :=
  (⟨other.m_interface⟩, ⟨none⟩)

/-- The assignment `self = m` from a matcher: `*this = AnyMatcher(m)`, a move from a temporary. -/
def AnyMatcher.assign (self : AnyMatcher σ) (m : Matcher σ) : AnyMatcher σ :=
  (self.moveAssign (AnyMatcher.ofMatcher m)).1

/-- The method `AnyMatcher::IsMatching(str)`: `m_interface->IsMatching(str)`. -/
def AnyMatcher.IsMatching (self : AnyMatcher σ) (str : StringView) (st : σ) :
    Option (Bool × σ) :=
  self.m_interface.map fun w => w.IsMatching str st

/-- The `AnyMatcher` objects of a program, by name; `none` where no object has the name. -/
abbrev Boxes (σ : Type) := Nat → Option (AnyMatcher σ)

/-- The public operations that create or modify `AnyMatcher` objects `x`, `y`. -/
inductive Op (σ : Type) where
  /-- The declaration `AnyMatcher x;`. -/
  | defaultConstruct (x : Nat)
  /-- The declaration `AnyMatcher x(m);`. -/
  | construct (x : Nat) (m : Matcher σ)
  /-- The declaration `AnyMatcher x(y);`. -/
  | copyConstruct (x y : Nat)
  /-- The statement `x = y;`. -/
  | copyAssign (x y : Nat)
  /-- The declaration `AnyMatcher x(std::move(y));`. -/
  | moveConstruct (x y : Nat)
  /-- The statement `x = std::move(y);`. -/
  | moveAssign (x y : Nat)
  /-- The statement `x = m;`. -/
  | assign (x : Nat) (m : Matcher σ)

/--
One operation on the objects. The result is `none` when the operation names an
object that does not exist, constructs an object from itself, or dereferences a
null `m_interface`. A move assignment of an object to itself leaves it as it is
(`std::unique_ptr` resets to the released pointer).
-/
def step : Op σ → Boxes σ → Option (Boxes σ)
  | .defaultConstruct x, env => some (Function.update env x (some AnyMatcher.new))
  | .construct x m, env => some (Function.update env x (some (AnyMatcher.ofMatcher m)))
  | .copyConstruct x y, env =>
    (env y).bind fun b => b.copy.map fun c => Function.update env x (some c)
  | .copyAssign x y, env =>
    (env x).bind fun a => (env y).bind fun b =>
      (a.copyAssign b).map fun c => Function.update env x (some c)
  | .moveConstruct x y, env =>
    if x = y then none
    else (env y).map fun b =>
      Function.update (Function.update env y (some b.move.2)) x (some b.move.1)
  | .moveAssign x y, env =>
    (env x).bind fun a => (env y).map fun b =>
      if x = y then env
      else Function.update (Function.update env y (some (a.moveAssign b).2)) x
        (some (a.moveAssign b).1)
  | .assign x m, env => (env x).map fun a => Function.update env x (some (a.assign m))

/-- A sequence of operations, run from left to right. -/
def run : List (Op σ) → Boxes σ → Option (Boxes σ)
  | [], env => some env
  | op :: ops, env => (step op env).bind (run ops)

/-- The call `x.IsMatching(str)` on the object named `x`. -/
def Boxes.IsMatching (env : Boxes σ) (x : Nat) (str : StringView) (st : σ) :
    Option (Bool × σ) :=
  (env x).bind fun a => a.IsMatching str st

/--
Which names are in the moved-from state after an operation, given which were
before: the source of a move enters it, the destination of a move takes the
state its source had, and every other operation gives its target a payload.
-/
def Op.movedFrom : Op σ → (Nat → Bool) → (Nat → Bool)
  | .defaultConstruct x, mf => Function.update mf x false
  | .construct x _, mf => Function.update mf x false
  | .copyConstruct x _, mf => Function.update mf x false
  | .copyAssign x _, mf => Function.update mf x false
  | .moveConstruct x y, mf => Function.update (Function.update mf y true) x (mf y)
  | .moveAssign x y, mf =>
    if x = y then mf else Function.update (Function.update mf y true) x (mf y)
  | .assign x _, mf => Function.update mf x false

/-- Which names are in the moved-from state after a sequence of operations. -/
def movedFrom : List (Op σ) → (Nat → Bool) → (Nat → Bool)
  | [], mf => mf
  | op :: ops, mf => movedFrom ops (op.movedFrom mf)

/-- Every object holds a payload exactly when its name is not marked moved-from. -/
def PayloadInv (env : Boxes σ) (mf : Nat → Bool) : Prop :=
  ∀ x a, env x = some a → a.m_interface.isSome = !(mf x)

end TypeErasure

/-! ## Matcher variables

A matcher held in a named variable can be replaced by assigning to the variable.
The variables used here hold a `std::string`, a matcher by its conversion to
`std::string_view`; their contents are the state.
-/

/-- The contents of the `std::string` variables of a program, by name. -/
abbrev Strings := Nat → StringView

/--
The lvalue `v` naming a `std::string` variable, as a constructor argument. The
forwarding reference deduces `Matcher = std::string&`, so the member
`InnerMatcher m_matcher` of `StrMatcherWrapper<Matcher>` is a `std::string&` bound
to the variable: the conversion `std::string_view{m_matcher}` reads what the
variable holds when the matcher is evaluated.
-/
def stringRef (v : Nat) : Matcher Strings := ⟨none, none, some fun st => (st v, st)⟩

/-! ## The switch (`include/SwitchStr/SwitchStr.hpp`) -/

/-- The class `SwitchStr<ResultType>`. -/
structure SwitchStr (ResultType : Type) where
  /-- The member `m_str`. -/
  m_str : StringView
  /-- The member `m_res`, `none` for `std::nullopt`. -/
  m_res : Option ResultType

section Switch

variable {σ ResultType : Type}

/-- The constructor `SwitchStr(str)`. -/
def SwitchStr.new (str : StringView) : SwitchStr ResultType := ⟨str, none⟩

/-- The method `Default(val)`: `m_res.value_or(val)`. -/
def SwitchStr.Default (self : SwitchStr ResultType) (val : ResultType) : ResultType :=
  self.m_res.getD val

/--
The method `Case(m, value)`. The condition is
`not m_res.has_value() and IsMatching(m, m_str)`: the matcher is evaluated only
when no result is recorded yet.
-/
def SwitchStr.Case (self : SwitchStr ResultType) (m : Matcher σ) (value : ResultType)
    (st : σ) : SwitchStr ResultType × σ :=
  if !self.m_res.isSome then
    if (IsMatching m self.m_str st).1 then
      ({ self with m_res := some value }, (IsMatching m self.m_str st).2)
    else (self, (IsMatching m self.m_str st).2)
  else (self, st)

/-- The chain `SwitchStr(str).Case(m_1, v_1) ... .Case(m_n, v_n)`, calls made left to right. -/
def SwitchStr.Cases (str : StringView) (cases : List (Matcher σ × ResultType)) (st : σ) :
    SwitchStr ResultType × σ :=
  cases.foldl (fun acc c => acc.1.Case c.1 c.2 acc.2) (SwitchStr.new str, st)

end Switch

/-! ## Theorems -/

section ScanLemmas

open string_view

theorem firstPos_eq_none_iff (p : StringView → Bool) (s : StringView) :
    firstPos p s = none ↔ ∀ k, k ≤ s.length → p (s.drop k) = false := by
  induction s with
  | nil =>
    by_cases h : p [] = true
    · simp [firstPos, h]
    · simp [firstPos, h]
  | cons c t ih =>
    by_cases h : p (c :: t) = true
    · simp only [firstPos, h, if_true]
      constructor
      · intro h0
        cases h0
      · intro hk
        have := hk 0 (Nat.zero_le _)
        simp [h] at this
    · have hf : p (c :: t) = false := by simpa using h
      simp only [firstPos, hf, Bool.false_eq_true, if_false, Option.map_eq_none', ih]
      constructor
      · intro hk k hle
        cases k with
        | zero => simpa using h
        | succ k => exact hk k (by simpa using hle)
      · intro hk k hle
        exact hk (k + 1) (by simpa using hle)

theorem firstPos_eq_some_iff (p : StringView → Bool) (s : StringView) (j : Nat) :
    firstPos p s = some j ↔
      j ≤ s.length ∧ p (s.drop j) = true ∧ ∀ k, k < j → p (s.drop k) = false := by
  induction s generalizing j with
  | nil =>
    by_cases h : p [] = true
    · simp only [firstPos, h, if_true, Option.some.injEq, List.length_nil, Nat.le_zero,
        List.drop_nil, true_and]
      constructor
      · intro h0
        subst h0
        exact ⟨rfl, fun k hk => absurd hk (Nat.not_lt_zero k)⟩
      · intro h0
        exact h0.1.symm
    · simp [firstPos, h]
  | cons c t ih =>
    by_cases h : p (c :: t) = true
    · simp only [firstPos, h, if_true, Option.some.injEq]
      constructor
      · intro h0
        subst h0
        exact ⟨Nat.zero_le _, by simpa using h, fun k hk => absurd hk (Nat.not_lt_zero k)⟩
      · rintro ⟨_, _, hk⟩
        cases j with
        | zero => rfl
        | succ j =>
          have := hk 0 (Nat.succ_pos j)
          simp [h] at this
    · have hf : p (c :: t) = false := by simpa using h
      simp only [firstPos, hf, Bool.false_eq_true, if_false, Option.map_eq_some', ih]
      constructor
      · rintro ⟨a, ⟨hle, hp, hk⟩, rfl⟩
        refine ⟨by simpa using hle, by simpa using hp, ?_⟩
        intro k hlt
        cases k with
        | zero => simpa using h
        | succ k => simpa using hk k (by omega)
      · rintro ⟨hle, hp, hk⟩
        cases j with
        | zero => simp [h] at hp
        | succ j =>
          refine ⟨j, ⟨by simpa using hle, by simpa using hp, ?_⟩, rfl⟩
          intro k hlt
          simpa using hk (k + 1) (by omega)

theorem lastPos_eq_none_iff (p : StringView → Bool) (s : StringView) :
    lastPos p s = none ↔ ∀ k, k ≤ s.length → p (s.drop k) = false := by
  induction s with
  | nil =>
    by_cases h : p [] = true
    · simp [lastPos, h]
    · simp [lastPos, h]
  | cons c t ih =>
    cases hl : lastPos p t with
    | some a =>
      simp only [lastPos, hl]
      constructor
      · intro h0
        cases h0
      · intro hk
        have hn : lastPos p t = none := ih.mpr (fun k hle => hk (k + 1) (by simpa using hle))
        rw [hl] at hn
        cases hn
    | none =>
      have ht := ih.mp hl
      by_cases h : p (c :: t) = true
      · simp only [lastPos, hl, h, if_true]
        constructor
        · intro h0
          cases h0
        · intro hk
          have := hk 0 (Nat.zero_le _)
          simp [h] at this
      · have hf : p (c :: t) = false := by simpa using h
        simp only [lastPos, hl, hf, Bool.false_eq_true, if_false]
        constructor
        · intro _ k hle
          cases k with
          | zero => simpa using h
          | succ k => exact ht k (by simpa using hle)
        · intro _
          trivial

theorem lastPos_eq_some_iff (p : StringView → Bool) (s : StringView) (j : Nat) :
    lastPos p s = some j ↔
      j ≤ s.length ∧ p (s.drop j) = true ∧
        ∀ k, j < k → k ≤ s.length → p (s.drop k) = false := by
  induction s generalizing j with
  | nil =>
    by_cases h : p [] = true
    · simp only [lastPos, h, if_true, Option.some.injEq, List.length_nil, Nat.le_zero,
        List.drop_nil, true_and]
      constructor
      · intro h0
        subst h0
        exact ⟨rfl, fun k hk hk0 => by omega⟩
      · intro h0
        exact h0.1.symm
    · simp [lastPos, h]
  | cons c t ih =>
    cases hl : lastPos p t with
    | some a =>
      obtain ⟨hale, hap, hak⟩ := (ih a).mp hl
      simp only [lastPos, hl, Option.some.injEq]
      constructor
      · intro h0
        subst h0
        refine ⟨by simpa using hale, by simpa using hap, ?_⟩
        intro k hlt hle
        cases k with
        | zero => omega
        | succ k => simpa using hak k (by omega) (by simpa using hle)
      · rintro ⟨hle, hp, hk⟩
        rcases Nat.lt_trichotomy j (a + 1) with hlt | heq | hgt
        · have := hk (a + 1) hlt (by simpa using hale)
          simp [hap] at this
        · exact heq.symm
        · cases j with
          | zero => omega
          | succ j =>
            have := hak j (by omega) (by simpa using hle)
            simp [this] at hp
    | none =>
      have ht := (lastPos_eq_none_iff p t).mp hl
      by_cases h : p (c :: t) = true
      · simp only [lastPos, hl, h, if_true, Option.some.injEq]
        constructor
        · intro h0
          subst h0
          refine ⟨Nat.zero_le _, by simpa using h, ?_⟩
          intro k hlt hle
          cases k with
          | zero => omega
          | succ k => simpa using ht k (by simpa using hle)
        · rintro ⟨hle, hp, _⟩
          cases j with
          | zero => rfl
          | succ j =>
            have := ht j (by simpa using hle)
            simp [this] at hp
      · have hf : p (c :: t) = false := by simpa using h
        simp only [lastPos, hl, hf, Bool.false_eq_true, if_false]
        constructor
        · intro h0
          cases h0
        · rintro ⟨hle, hp, _⟩
          cases j with
          | zero => simp [h] at hp
          | succ j =>
            have := ht j (by simpa using hle)
            simp [this] at hp

end ScanLemmas

section LookupLemmas

open string_view

theorem isPrefixOf_drop_iff (v s : StringView) (j : Nat) :
    (j ≤ s.length ∧ v.isPrefixOf (s.drop j) = true) ↔
      (j + v.length ≤ s.length ∧ (s.drop j).take v.length = v) := by
  rw [List.isPrefixOf_iff_prefix, List.prefix_iff_eq_take]
  constructor
  · rintro ⟨hj, hv⟩
    have hlen := congrArg List.length hv
    simp only [List.length_take, List.length_drop] at hlen
    exact ⟨by omega, hv.symm⟩
  · rintro ⟨hj, hv⟩
    exact ⟨by omega, hv.symm⟩

theorem singleton_isPrefixOf_drop_iff (c : Char) (s : StringView) (j : Nat) :
    (j ≤ s.length ∧ [c].isPrefixOf (s.drop j) = true) ↔ s[j]? = some c := by
  rw [isPrefixOf_drop_iff]
  constructor
  · rintro ⟨hj, hv⟩
    have hj' : j < s.length := by simpa using hj
    rw [List.drop_eq_getElem_cons hj'] at hv
    simp only [List.length_singleton, List.take_succ_cons, List.take_zero, List.cons.injEq,
      and_true] at hv
    rw [List.getElem?_eq_getElem hj', hv]
  · intro h
    obtain ⟨hj, hc⟩ := List.getElem?_eq_some_iff.mp h
    refine ⟨by simpa using hj, ?_⟩
    rw [List.drop_eq_getElem_cons hj, hc]
    simp

theorem startsWithOneOf_drop_iff (v s : StringView) (j : Nat) :
    (j ≤ s.length ∧ startsWithOneOf v (s.drop j) = true) ↔ ∃ c, s[j]? = some c ∧ c ∈ v := by
  constructor
  · rintro ⟨hj, hv⟩
    rcases Nat.lt_or_ge j s.length with hlt | hge
    · rw [List.drop_eq_getElem_cons hlt] at hv
      exact ⟨s[j], List.getElem?_eq_getElem hlt, by simpa [startsWithOneOf] using hv⟩
    · rw [List.drop_eq_nil_of_le hge] at hv
      simp [startsWithOneOf] at hv
  · rintro ⟨c, hc, hmem⟩
    obtain ⟨hj, hc⟩ := List.getElem?_eq_some_iff.mp hc
    refine ⟨Nat.le_of_lt hj, ?_⟩
    rw [List.drop_eq_getElem_cons hj, hc]
    simpa [startsWithOneOf] using hmem

/-- A successful lookup reports `true` and stores the position. -/
theorem DoLookup_found (f : Pattern → Nat) (pat : Pattern) (w : Nat) (mem : Mem)
    (h : f pat ≠ npos) :
    details.DoLookup f pat (some w) mem = (true, Function.update mem w (f pat)) := by
  simp [details.DoLookup, h]

/-- A failed lookup reports `false` and stores nothing. -/
theorem DoLookup_not_found (f : Pattern → Nat) (pat : Pattern) (wh : Option Nat) (mem : Mem)
    (h : f pat = npos) :
    details.DoLookup f pat wh mem = (false, mem) := by
  cases wh <;> simp [details.DoLookup, h]

/-- Forward lookups: the result is `true` exactly when some position qualifies,
and then the cell holds the least qualifying position. -/
theorem lookup_first (q : StringView → Bool) (s : StringView) (hs : s.length < npos)
    (f : Pattern → Nat) (pat : Pattern) (w : Nat) (mem : Mem)
    (hf : f pat = (firstPos q s).getD npos) :
    ((details.DoLookup f pat (some w) mem).1 = true ↔
      ∃ i, i ≤ s.length ∧ q (s.drop i) = true) ∧
    ((details.DoLookup f pat (some w) mem).1 = true →
      IsLeast {i | i ≤ s.length ∧ q (s.drop i) = true}
        ((details.DoLookup f pat (some w) mem).2 w)) := by
  cases hfp : firstPos q s with
  | none =>
    have hnone := (firstPos_eq_none_iff q s).mp hfp
    have hval : f pat = npos := by rw [hf, hfp]; rfl
    rw [DoLookup_not_found f pat (some w) mem hval]
    refine ⟨?_, ?_⟩
    · constructor
      · intro h
        cases h
      · rintro ⟨i, hi, hq⟩
        rw [hnone i hi] at hq
        cases hq
    · intro h
      cases h
  | some j =>
    obtain ⟨hj, hq, hmin⟩ := (firstPos_eq_some_iff q s j).mp hfp
    have hval : f pat = j := by rw [hf, hfp]; rfl
    have hne : f pat ≠ npos := by rw [hval]; omega
    rw [DoLookup_found f pat w mem hne, hval]
    refine ⟨⟨fun _ => ⟨j, hj, hq⟩, fun _ => rfl⟩, fun _ => ?_⟩
    simp only [Function.update_same]
    refine ⟨⟨hj, hq⟩, ?_⟩
    rintro k ⟨_, hkq⟩
    by_contra hlt
    rw [hmin k (by omega)] at hkq
    cases hkq

/-- Reverse lookups: the result is `true` exactly when some position qualifies,
and then the cell holds the greatest qualifying position. -/
theorem lookup_last (q : StringView → Bool) (s : StringView) (hs : s.length < npos)
    (f : Pattern → Nat) (pat : Pattern) (w : Nat) (mem : Mem)
    (hf : f pat = (lastPos q s).getD npos) :
    ((details.DoLookup f pat (some w) mem).1 = true ↔
      ∃ i, i ≤ s.length ∧ q (s.drop i) = true) ∧
    ((details.DoLookup f pat (some w) mem).1 = true →
      IsGreatest {i | i ≤ s.length ∧ q (s.drop i) = true}
        ((details.DoLookup f pat (some w) mem).2 w)) := by
  cases hfp : lastPos q s with
  | none =>
    have hnone := (lastPos_eq_none_iff q s).mp hfp
    have hval : f pat = npos := by rw [hf, hfp]; rfl
    rw [DoLookup_not_found f pat (some w) mem hval]
    refine ⟨?_, ?_⟩
    · constructor
      · intro h
        cases h
      · rintro ⟨i, hi, hq⟩
        rw [hnone i hi] at hq
        cases hq
    · intro h
      cases h
  | some j =>
    obtain ⟨hj, hq, hmax⟩ := (lastPos_eq_some_iff q s j).mp hfp
    have hval : f pat = j := by rw [hf, hfp]; rfl
    have hne : f pat ≠ npos := by rw [hval]; omega
    rw [DoLookup_found f pat w mem hne, hval]
    refine ⟨⟨fun _ => ⟨j, hj, hq⟩, fun _ => rfl⟩, fun _ => ?_⟩
    simp only [Function.update_same]
    refine ⟨⟨hj, hq⟩, ?_⟩
    rintro k ⟨hk, hkq⟩
    by_contra hlt
    rw [hmax k (by omega) hk] at hkq
    cases hkq

end LookupLemmas

section DispatchTheorems

variable {σ : Type}

/--
C1. Dispatch priority of `IsMatching(m, s)`: when `m` has both an `IsMatching`
method and a call operator (with or without a string conversion) the result, and
the effect, is that of the method; when `m` has a call operator and a string
conversion but no method, it is that of the call operator.
-/
theorem IsMatching_dispatch_priority (f g : Call σ) (c : Conv σ) (oc : Option (Conv σ))
    (s : StringView) (st : σ) :
    IsMatching ⟨some f, some g, oc⟩ s st = f s st ∧
    IsMatching ⟨none, some g, some c⟩ s st = g s st :=
  ⟨rfl, rfl⟩

/--
C2. Literal fallback of `IsMatching(m, s)`: when `m` has neither the method nor
the call operator and converts to the string `l`, `IsMatching(m, s)` is true
exactly when `s` and `l` have the same length and the same character at every
index; in particular a proper prefix of `l`, or a string with `l` as a proper
prefix, does not match.
-/
theorem IsMatching_literal_whole_string (m : Matcher σ) (c : Conv σ) (l s : StringView)
    (st : σ) (hm : m.method = none) (hc : m.call = none) (hv : m.conv = some c)
    (hl : (c st).1 = l) :
    ((IsMatching m s st).1 = true ↔
      s.length = l.length ∧ ∀ i, i < l.length → s[i]? = l[i]?) ∧
    (∀ t : StringView, t ≠ [] → (s = l ++ t ∨ l = s ++ t) → (IsMatching m s st).1 = false) := by
  subst hl
  have hval : (IsMatching m s st).1 = decide (s = (c st).1) := by
    simp only [IsMatching, hm, hc, hv]
  refine ⟨?_, ?_⟩
  · rw [hval, decide_eq_true_iff]
    constructor
    · intro h
      subst h
      exact ⟨rfl, fun _ _ => rfl⟩
    · rintro ⟨hlen, hget⟩
      apply List.ext_getElem?
      intro i
      by_cases hi : i < (c st).1.length
      · exact hget i hi
      · rw [List.getElem?_eq_none (by omega), List.getElem?_eq_none (by omega)]
  · intro t ht hst
    rw [hval, decide_eq_false_iff_not]
    intro h
    rcases hst with h' | h'
    · rw [h] at h'
      have := congrArg List.length h'
      simp at this
      exact ht this
    · rw [h] at h'
      have := congrArg List.length h'
      simp at this
      exact ht this

/-- Witness of C2 on the literal `"foo"` and the input `"fo"`, in a state-free world. -/
theorem IsMatching_literal_whole_string_witness :
    ((IsMatching (literal "foo".toList) "fo".toList ()).1 = true ↔
      "fo".toList.length = "foo".toList.length ∧
        ∀ i, i < "foo".toList.length → "fo".toList[i]? = "foo".toList[i]?) ∧
    (∀ t : StringView, t ≠ [] →
      ("fo".toList = "foo".toList ++ t ∨ "foo".toList = "fo".toList ++ t) →
      (IsMatching (literal "foo".toList) "fo".toList ()).1 = false) :=
  IsMatching_literal_whole_string (literal "foo".toList) (fun st : Unit => ("foo".toList, st))
    "foo".toList "fo".toList () rfl rfl rfl rfl

end DispatchTheorems


section LookupTheorems

open string_view

/--
C3. `Contains(p, &pos)` on input `s`: for a string pattern `v` the matcher returns
true exactly when `s[i .. i+|v|) = v` for some `i`, and for a character pattern
`c` exactly when `s[i] = c` for some `i`; when it returns true the position cell
holds the least such `i` (the first occurrence).
-/
theorem Contains_first_occurrence (s : StringView) (w : Nat) (mem : Mem)
    (hs : s.length < npos) :
    (∀ v : StringView,
      ((IsMatching (Contains (.sv v) (some w)) s mem).1 = true ↔
        ∃ i, i + v.length ≤ s.length ∧ (s.drop i).take v.length = v) ∧
      ((IsMatching (Contains (.sv v) (some w)) s mem).1 = true →
        IsLeast {i : Nat | i + v.length ≤ s.length ∧ (s.drop i).take v.length = v}
          ((IsMatching (Contains (.sv v) (some w)) s mem).2 w))) ∧
    (∀ c : Char,
      ((IsMatching (Contains (.ch c) (some w)) s mem).1 = true ↔ ∃ i : Nat, s[i]? = some c) ∧
      ((IsMatching (Contains (.ch c) (some w)) s mem).1 = true →
        IsLeast {i : Nat | s[i]? = some c} ((IsMatching (Contains (.ch c) (some w)) s mem).2 w))) := by
  refine ⟨fun v => ?_, fun c => ?_⟩
  · have h := lookup_first (fun r => v.isPrefixOf r) s hs
      (fun p => match p with
        | .sv v => string_view.find s v
        | .ch c => string_view.find_char s c) (.sv v) w mem rfl
    simp only [isPrefixOf_drop_iff] at h
    exact h
  · have h := lookup_first (fun r => [c].isPrefixOf r) s hs
      (fun p => match p with
        | .sv v => string_view.find s v
        | .ch c => string_view.find_char s c) (.ch c) w mem rfl
    simp only [singleton_isPrefixOf_drop_iff] at h
    exact h

/-- Witness of C3: `Contains("foo", &pos)` on `"0123foo43210"`. -/
theorem Contains_first_occurrence_witness :
    "0123foo43210".toList.length < npos ∧
    IsLeast {i : Nat | i + "foo".toList.length ≤ "0123foo43210".toList.length ∧
        ("0123foo43210".toList.drop i).take "foo".toList.length = "foo".toList}
      ((IsMatching (Contains (.sv "foo".toList) (some 0)) "0123foo43210".toList
        (fun _ => npos)).2 0) :=
  ⟨by decide,
    ((Contains_first_occurrence "0123foo43210".toList 0 (fun _ => npos) (by decide)).1
      "foo".toList).2 (by decide)⟩

/--
C4. `ContainsR(p, &pos)` on input `s`: for a string pattern `v` the matcher returns
true exactly when `s[i .. i+|v|) = v` for some `i`, and for a character pattern
`c` exactly when `s[i] = c` for some `i`; when it returns true the position cell
holds the greatest such `i` (the start of the last occurrence).
-/
theorem ContainsR_last_occurrence (s : StringView) (w : Nat) (mem : Mem)
    (hs : s.length < npos) :
    (∀ v : StringView,
      ((IsMatching (ContainsR (.sv v) (some w)) s mem).1 = true ↔
        ∃ i, i + v.length ≤ s.length ∧ (s.drop i).take v.length = v) ∧
      ((IsMatching (ContainsR (.sv v) (some w)) s mem).1 = true →
        IsGreatest {i : Nat | i + v.length ≤ s.length ∧ (s.drop i).take v.length = v}
          ((IsMatching (ContainsR (.sv v) (some w)) s mem).2 w))) ∧
    (∀ c : Char,
      ((IsMatching (ContainsR (.ch c) (some w)) s mem).1 = true ↔ ∃ i : Nat, s[i]? = some c) ∧
      ((IsMatching (ContainsR (.ch c) (some w)) s mem).1 = true →
        IsGreatest {i : Nat | s[i]? = some c}
          ((IsMatching (ContainsR (.ch c) (some w)) s mem).2 w))) := by
  refine ⟨fun v => ?_, fun c => ?_⟩
  · have h := lookup_last (fun r => v.isPrefixOf r) s hs
      (fun p => match p with
        | .sv v => string_view.rfind s v
        | .ch c => string_view.rfind_char s c) (.sv v) w mem rfl
    simp only [isPrefixOf_drop_iff] at h
    exact h
  · have h := lookup_last (fun r => [c].isPrefixOf r) s hs
      (fun p => match p with
        | .sv v => string_view.rfind s v
        | .ch c => string_view.rfind_char s c) (.ch c) w mem rfl
    simp only [singleton_isPrefixOf_drop_iff] at h
    exact h

/-- Witness of C4: `ContainsR("foo", &pos)` on `"foofoofoo"` stores 6. -/
theorem ContainsR_last_occurrence_witness :
    "foofoofoo".toList.length < npos ∧
    (IsMatching (ContainsR (.sv "foo".toList) (some 0)) "foofoofoo".toList
      (fun _ => npos)).2 0 = 6 ∧
    IsGreatest {i : Nat | i + "foo".toList.length ≤ "foofoofoo".toList.length ∧
        ("foofoofoo".toList.drop i).take "foo".toList.length = "foo".toList}
      ((IsMatching (ContainsR (.sv "foo".toList) (some 0)) "foofoofoo".toList
        (fun _ => npos)).2 0) :=
  ⟨by decide, by decide,
    ((ContainsR_last_occurrence "foofoofoo".toList 0 (fun _ => npos) (by decide)).1
      "foo".toList).2 (by decide)⟩

/--
C5. `ContainsOneOf(p, &pos)` on input `s`: for a string pattern `v`, read as a set
of candidate characters, the matcher returns true exactly when `s[i] ∈ v` for
some `i`, and for a character pattern `c` exactly when `s[i] = c` for some `i`;
when it returns true the position cell holds the least such `i`.
-/
theorem ContainsOneOf_first_member (s : StringView) (w : Nat) (mem : Mem)
    (hs : s.length < npos) :
    (∀ v : StringView,
      ((IsMatching (ContainsOneOf (.sv v) (some w)) s mem).1 = true ↔
        ∃ i : Nat, ∃ c, s[i]? = some c ∧ c ∈ v) ∧
      ((IsMatching (ContainsOneOf (.sv v) (some w)) s mem).1 = true →
        IsLeast {i : Nat | ∃ c, s[i]? = some c ∧ c ∈ v}
          ((IsMatching (ContainsOneOf (.sv v) (some w)) s mem).2 w))) ∧
    (∀ c : Char,
      ((IsMatching (ContainsOneOf (.ch c) (some w)) s mem).1 = true ↔ ∃ i : Nat, s[i]? = some c) ∧
      ((IsMatching (ContainsOneOf (.ch c) (some w)) s mem).1 = true →
        IsLeast {i : Nat | s[i]? = some c}
          ((IsMatching (ContainsOneOf (.ch c) (some w)) s mem).2 w))) := by
  refine ⟨fun v => ?_, fun c => ?_⟩
  · have h := lookup_first (startsWithOneOf v) s hs
      (fun p => match p with
        | .sv v => string_view.find_first_of s v
        | .ch c => string_view.find_first_of_char s c) (.sv v) w mem rfl
    simp only [startsWithOneOf_drop_iff] at h
    exact h
  · have h := lookup_first (fun r => [c].isPrefixOf r) s hs
      (fun p => match p with
        | .sv v => string_view.find_first_of s v
        | .ch c => string_view.find_first_of_char s c) (.ch c) w mem rfl
    simp only [singleton_isPrefixOf_drop_iff] at h
    exact h

/-- Witness of C5: `ContainsOneOf("foo", &pos)` on `"0123foo43210"` stores 4. -/
theorem ContainsOneOf_first_member_witness :
    "0123foo43210".toList.length < npos ∧
    (IsMatching (ContainsOneOf (.sv "foo".toList) (some 0)) "0123foo43210".toList
      (fun _ => npos)).2 0 = 4 ∧
    IsLeast {i : Nat | ∃ c, "0123foo43210".toList[i]? = some c ∧ c ∈ "foo".toList}
      ((IsMatching (ContainsOneOf (.sv "foo".toList) (some 0)) "0123foo43210".toList
        (fun _ => npos)).2 0) :=
  ⟨by decide, by decide,
    ((ContainsOneOf_first_member "0123foo43210".toList 0 (fun _ => npos) (by decide)).1
      "foo".toList).2 (by decide)⟩

/--
C6. `ContainsOneOfR(p, &pos)` on input `s`: for a string pattern `v`, read as a set
of candidate characters, the matcher returns true exactly when `s[i] ∈ v` for
some `i`, and for a character pattern `c` exactly when `s[i] = c` for some `i`;
when it returns true the position cell holds the greatest such `i`.
-/
theorem ContainsOneOfR_last_member (s : StringView) (w : Nat) (mem : Mem)
    (hs : s.length < npos) :
    (∀ v : StringView,
      ((IsMatching (ContainsOneOfR (.sv v) (some w)) s mem).1 = true ↔
        ∃ i : Nat, ∃ c, s[i]? = some c ∧ c ∈ v) ∧
      ((IsMatching (ContainsOneOfR (.sv v) (some w)) s mem).1 = true →
        IsGreatest {i : Nat | ∃ c, s[i]? = some c ∧ c ∈ v}
          ((IsMatching (ContainsOneOfR (.sv v) (some w)) s mem).2 w))) ∧
    (∀ c : Char,
      ((IsMatching (ContainsOneOfR (.ch c) (some w)) s mem).1 = true ↔
        ∃ i : Nat, s[i]? = some c) ∧
      ((IsMatching (ContainsOneOfR (.ch c) (some w)) s mem).1 = true →
        IsGreatest {i : Nat | s[i]? = some c}
          ((IsMatching (ContainsOneOfR (.ch c) (some w)) s mem).2 w))) := by
  refine ⟨fun v => ?_, fun c => ?_⟩
  · have h := lookup_last (startsWithOneOf v) s hs
      (fun p => match p with
        | .sv v => string_view.find_last_of s v
        | .ch c => string_view.find_last_of_char s c) (.sv v) w mem rfl
    simp only [startsWithOneOf_drop_iff] at h
    exact h
  · have h := lookup_last (fun r => [c].isPrefixOf r) s hs
      (fun p => match p with
        | .sv v => string_view.find_last_of s v
        | .ch c => string_view.find_last_of_char s c) (.ch c) w mem rfl
    simp only [singleton_isPrefixOf_drop_iff] at h
    exact h

/-- Witness of C6: `ContainsOneOfR("foo", &pos)` stores 8 on `"foofoofoo"`. -/
theorem ContainsOneOfR_last_member_witness :
    "foofoofoo".toList.length < npos ∧
    (IsMatching (ContainsOneOfR (.sv "foo".toList) (some 0)) "foofoofoo".toList
      (fun _ => npos)).2 0 = 8 ∧
    IsGreatest {i : Nat | ∃ c, "foofoofoo".toList[i]? = some c ∧ c ∈ "foo".toList}
      ((IsMatching (ContainsOneOfR (.sv "foo".toList) (some 0)) "foofoofoo".toList
        (fun _ => npos)).2 0) :=
  ⟨by decide, by decide,
    ((ContainsOneOfR_last_member "foofoofoo".toList 0 (fun _ => npos) (by decide)).1
      "foo".toList).2 (by decide)⟩

/--
C7. Failure leaves the position output untouched: for each of `Contains`,
`ContainsR`, `ContainsOneOf` and `ContainsOneOfR`, every pattern, every input
and every memory, if the matcher returns false then the memory afterwards is
the memory before; in particular the position cell keeps its initial value.
-/
theorem lookup_failure_keeps_position
    (L : Pattern → Option Nat → Matcher Mem)
    (hL : L ∈ [Contains, ContainsR, ContainsOneOf, ContainsOneOfR])
    (p : Pattern) (w : Nat) (s : StringView) (mem : Mem)
    (hfalse : (IsMatching (L p (some w)) s mem).1 = false) :
    (IsMatching (L p (some w)) s mem).2 = mem ∧
    (IsMatching (L p (some w)) s mem).2 w = mem w := by
  have key : ∀ (f : Pattern → Nat),
      (details.DoLookup f p (some w) mem).1 = false →
      (details.DoLookup f p (some w) mem).2 = mem := by
    intro f hf
    by_cases h : f p = npos
    · rw [DoLookup_not_found f p (some w) mem h]
    · rw [DoLookup_found f p w mem h] at hf
      cases hf
  have hmem : (IsMatching (L p (some w)) s mem).2 = mem := by
    simp only [List.mem_cons, List.mem_singleton, List.mem_nil_iff, or_false] at hL
    rcases hL with rfl | rfl | rfl | rfl
    · exact key _ hfalse
    · exact key _ hfalse
    · exact key _ hfalse
    · exact key _ hfalse
  exact ⟨hmem, by rw [hmem]⟩

/-- Witness of C7: `Contains("zzz", &pos)` on `"bar"` with `pos` preset to `npos`. -/
theorem lookup_failure_keeps_position_witness :
    (IsMatching (Contains (.sv "zzz".toList) (some 0)) "bar".toList (fun _ => npos)).1 = false ∧
    (IsMatching (Contains (.sv "zzz".toList) (some 0)) "bar".toList (fun _ => npos)).2
      = (fun _ => npos) ∧
    (IsMatching (Contains (.sv "zzz".toList) (some 0)) "bar".toList (fun _ => npos)).2 0
      = (fun _ => npos) 0 :=
  ⟨by decide,
    lookup_failure_keeps_position Contains (by simp) (.sv "zzz".toList) 0 "bar".toList
      (fun _ => npos) (by decide)⟩

end LookupTheorems

section MetaLemmas

variable {σ : Type}

theorem foldl_and_false (str : StringView) (rest : List (Matcher σ)) (st : σ) :
    rest.foldl (fun acc mi => if acc.1 then IsMatching mi str acc.2 else (false, acc.2))
      (false, st) = (false, st) := by
  induction rest with
  | nil => rfl
  | cons m rest ih => simpa using ih

theorem foldl_or_true (str : StringView) (rest : List (Matcher σ)) (st : σ) :
    rest.foldl (fun acc mi => if acc.1 then (true, acc.2) else IsMatching mi str acc.2)
      (true, st) = (true, st) := by
  induction rest with
  | nil => rfl
  | cons m rest ih => simpa using ih

theorem AllOf_singleton (m : Matcher σ) (s : StringView) (st : σ) :
    IsMatching (AllOf [m]) s st = IsMatching m s st := rfl

theorem AllOf_cons_cons (m m' : Matcher σ) (rest : List (Matcher σ)) (s : StringView)
    (st : σ) :
    IsMatching (AllOf (m :: m' :: rest)) s st =
      if (IsMatching m s st).1 then IsMatching (AllOf (m' :: rest)) s (IsMatching m s st).2
      else (false, (IsMatching m s st).2) := by
  cases h : (IsMatching m s st).1 with
  | true =>
    simp only [IsMatching, AllOf, lambda, List.foldl_cons, if_true] at h ⊢
    rw [h]
    simp
  | false =>
    simp only [IsMatching, AllOf, lambda, List.foldl_cons] at h ⊢
    rw [h]
    simp only [Bool.false_eq_true, if_false]
    exact foldl_and_false s rest _

theorem AnyOf_singleton (m : Matcher σ) (s : StringView) (st : σ) :
    IsMatching (AnyOf [m]) s st = IsMatching m s st := rfl

theorem AnyOf_cons_cons (m m' : Matcher σ) (rest : List (Matcher σ)) (s : StringView)
    (st : σ) :
    IsMatching (AnyOf (m :: m' :: rest)) s st =
      if (IsMatching m s st).1 then (true, (IsMatching m s st).2)
      else IsMatching (AnyOf (m' :: rest)) s (IsMatching m s st).2 := by
  cases h : (IsMatching m s st).1 with
  | true =>
    simp only [IsMatching, AnyOf, lambda, List.foldl_cons] at h ⊢
    rw [h]
    simp only [if_true]
    exact foldl_or_true s rest _
  | false =>
    simp only [IsMatching, AnyOf, lambda, List.foldl_cons] at h ⊢
    rw [h]
    simp

theorem IsMatching_spy (i : Nat) (m : Matcher σ) (s : StringView) (st : σ) (log : CallLog) :
    IsMatching (spy i m) s (st, log) =
      ((IsMatching m s st).1, ((IsMatching m s st).2, log ++ [(i, s, (IsMatching m s st).1)])) :=
  rfl

end MetaLemmas

section MetaTheorems

variable {σ : Type}

theorem range_succ_entries (j k : Nat) (s : StringView) (b : Bool) :
    (List.range (k + 1)).map (fun i => (j + i, s, b)) =
      (j, s, b) :: (List.range k).map (fun i => (j + 1 + i, s, b)) := by
  rw [List.range_succ_eq_map, List.map_cons, List.map_map]
  congr 1
  apply List.map_congr_left
  intro i _
  simp only [Function.comp_apply, Nat.succ_eq_add_one]
  congr 1
  omega

theorem AllOf_spies_log (s : StringView) (ms : List (Matcher σ)) (hne : ms ≠ []) (j : Nat)
    (st : σ) (log : CallLog) :
    ∃ k b, k < ms.length ∧
      IsMatching (AllOf (spies j ms)) s (st, log) =
        (b, ((IsMatching (AllOf ms) s st).2,
          log ++ (List.range k).map (fun i => (j + i, s, true)) ++ [(j + k, s, b)])) ∧
      (b = true → k + 1 = ms.length) ∧
      (IsMatching (AllOf ms) s st).1 = b := by
  induction ms generalizing j st log with
  | nil => exact absurd rfl hne
  | cons m tl ih =>
    cases tl with
    | nil =>
      refine ⟨0, (IsMatching m s st).1, by simp, ?_, fun _ => rfl, rfl⟩
      simp only [spies, AllOf_singleton, IsMatching_spy, List.range_zero, List.map_nil,
        List.append_nil, Nat.add_zero]
    | cons m' rest =>
      cases h : (IsMatching m s st).1 with
      | false =>
        refine ⟨0, false, by simp, ?_, (fun hb => by cases hb), ?_⟩
        · simp only [spies, AllOf_cons_cons, IsMatching_spy, h, Bool.false_eq_true, if_false,
            List.range_zero, List.map_nil, List.append_nil, Nat.add_zero]
        · simp only [AllOf_cons_cons, h, Bool.false_eq_true, if_false]
      | true =>
        obtain ⟨k, b, hk, hrun, hlast, hres⟩ :=
          ih (by simp) (j + 1) (IsMatching m s st).2 (log ++ [(j, s, true)])
        refine ⟨k + 1, b, by simpa using hk, ?_, ?_, ?_⟩
        · simp only [spies, AllOf_cons_cons, IsMatching_spy, h, if_true]
          simp only [spies] at hrun
          rw [hrun, range_succ_entries, show j + (k + 1) = j + 1 + k by omega]
          simp only [AllOf_cons_cons (σ := σ), h, if_true, List.append_assoc,
            List.singleton_append, List.cons_append, List.nil_append]
        · intro hb
          simpa using hlast hb
        · simp only [AllOf_cons_cons, h, if_true]
          exact hres

theorem AnyOf_spies_log (s : StringView) (ms : List (Matcher σ)) (hne : ms ≠ []) (j : Nat)
    (st : σ) (log : CallLog) :
    ∃ k b, k < ms.length ∧
      IsMatching (AnyOf (spies j ms)) s (st, log) =
        (b, ((IsMatching (AnyOf ms) s st).2,
          log ++ (List.range k).map (fun i => (j + i, s, false)) ++ [(j + k, s, b)])) ∧
      (b = false → k + 1 = ms.length) ∧
      (IsMatching (AnyOf ms) s st).1 = b := by
  induction ms generalizing j st log with
  | nil => exact absurd rfl hne
  | cons m tl ih =>
    cases tl with
    | nil =>
      refine ⟨0, (IsMatching m s st).1, by simp, ?_, fun _ => rfl, rfl⟩
      simp only [spies, AnyOf_singleton, IsMatching_spy, List.range_zero, List.map_nil,
        List.append_nil, Nat.add_zero]
    | cons m' rest =>
      cases h : (IsMatching m s st).1 with
      | true =>
        refine ⟨0, true, by simp, ?_, (fun hb => by cases hb), ?_⟩
        · simp only [spies, AnyOf_cons_cons, IsMatching_spy, h, if_true,
            List.range_zero, List.map_nil, List.append_nil, Nat.add_zero]
        · simp only [AnyOf_cons_cons, h, if_true]
      | false =>
        obtain ⟨k, b, hk, hrun, hlast, hres⟩ :=
          ih (by simp) (j + 1) (IsMatching m s st).2 (log ++ [(j, s, false)])
        refine ⟨k + 1, b, by simpa using hk, ?_, ?_, ?_⟩
        · simp only [spies, AnyOf_cons_cons, IsMatching_spy, h, Bool.false_eq_true, if_false]
          simp only [spies] at hrun
          rw [hrun, range_succ_entries, show j + (k + 1) = j + 1 + k by omega]
          simp only [AnyOf_cons_cons (σ := σ), h, Bool.false_eq_true, if_false,
            List.append_assoc, List.singleton_append, List.cons_append, List.nil_append]
        · intro hb
          simpa using hlast hb
        · simp only [AnyOf_cons_cons, h, Bool.false_eq_true, if_false]
          exact hres

/--
C8. `AllOf(m_1, ..., m_n)` on input `s`, `n ≥ 1`, children of any kind (stateful
or not): recording every child invocation, the call log of one evaluation is
child `0`, child `1`, ..., child `k`, each invoked once on `s`, in that order and
nothing else; the children before `k` returned true; either `k` is the last
child or child `k` returned false; the result is what child `k` returned, so it
is true exactly when no invoked child returned false. Recording changes neither
the result nor the final state.
-/
theorem AllOf_short_circuit (ms : List (Matcher σ)) (hne : ms ≠ []) (s : StringView)
    (st : σ) :
    ∃ k b, k < ms.length ∧
      IsMatching (AllOf (spies 0 ms)) s (st, []) =
        (b, ((IsMatching (AllOf ms) s st).2,
          (List.range k).map (fun i => (i, s, true)) ++ [(k, s, b)])) ∧
      (k + 1 = ms.length ∨ b = false) ∧
      (IsMatching (AllOf ms) s st).1 = b := by
  obtain ⟨k, b, hk, hrun, hlast, hres⟩ := AllOf_spies_log s ms hne 0 st []
  refine ⟨k, b, hk, ?_, ?_, hres⟩
  · simpa using hrun
  · cases b with
    | true => exact Or.inl (hlast rfl)
    | false => exact Or.inr rfl

/-- Witness of C8: `AllOf("foo", DoNot("foo"), "baz")` on `"foo"` stops at the second child. -/
theorem AllOf_short_circuit_witness :
    [literal "foo".toList, DoNot (.same (literal "foo".toList)), literal "baz".toList]
      ≠ ([] : List (Matcher Unit)) ∧
    IsMatching (AllOf (spies 0
        [literal "foo".toList, DoNot (.same (literal "foo".toList)), literal "baz".toList]))
      "foo".toList ((), []) =
        (false, ((), [(0, "foo".toList, true), (1, "foo".toList, false)])) ∧
    ∃ k b, k < [literal "foo".toList, DoNot (.same (literal "foo".toList)),
        (literal "baz".toList : Matcher Unit)].length ∧
      IsMatching (AllOf (spies 0
          [literal "foo".toList, DoNot (.same (literal "foo".toList)), literal "baz".toList]))
        "foo".toList ((), []) =
        (b, ((IsMatching (AllOf
            [literal "foo".toList, DoNot (.same (literal "foo".toList)), literal "baz".toList])
              "foo".toList ()).2,
          (List.range k).map (fun i => (i, "foo".toList, true)) ++ [(k, "foo".toList, b)])) ∧
      (k + 1 = [literal "foo".toList, DoNot (.same (literal "foo".toList)),
        (literal "baz".toList : Matcher Unit)].length ∨ b = false) ∧
      (IsMatching (AllOf
        [literal "foo".toList, DoNot (.same (literal "foo".toList)), literal "baz".toList])
          "foo".toList ()).1 = b :=
  ⟨by simp, by decide,
    AllOf_short_circuit
      [literal "foo".toList, DoNot (.same (literal "foo".toList)), literal "baz".toList]
      (by simp) "foo".toList ()⟩

/--
C9. `AnyOf(m_1, ..., m_n)` on input `s`, `n ≥ 1`, children of any kind (stateful
or not): recording every child invocation, the call log of one evaluation is
child `0`, child `1`, ..., child `k`, each invoked once on `s`, in that order and
nothing else; the children before `k` returned false; either `k` is the last
child or child `k` returned true; the result is what child `k` returned, so it
is false exactly when every child was invoked and returned false. Recording
changes neither the result nor the final state.
-/
theorem AnyOf_short_circuit (ms : List (Matcher σ)) (hne : ms ≠ []) (s : StringView)
    (st : σ) :
    ∃ k b, k < ms.length ∧
      IsMatching (AnyOf (spies 0 ms)) s (st, []) =
        (b, ((IsMatching (AnyOf ms) s st).2,
          (List.range k).map (fun i => (i, s, false)) ++ [(k, s, b)])) ∧
      (k + 1 = ms.length ∨ b = true) ∧
      (IsMatching (AnyOf ms) s st).1 = b := by
  obtain ⟨k, b, hk, hrun, hlast, hres⟩ := AnyOf_spies_log s ms hne 0 st []
  refine ⟨k, b, hk, ?_, ?_, hres⟩
  · simpa using hrun
  · cases b with
    | false => exact Or.inl (hlast rfl)
    | true => exact Or.inr rfl

/-- Witness of C9: `AnyOf("fo", "foo", DoNot("baz"))` on `"foo"` stops at the second child. -/
theorem AnyOf_short_circuit_witness :
    [literal "fo".toList, literal "foo".toList, DoNot (.same (literal "baz".toList))]
      ≠ ([] : List (Matcher Unit)) ∧
    IsMatching (AnyOf (spies 0
        [literal "fo".toList, literal "foo".toList, DoNot (.same (literal "baz".toList))]))
      "foo".toList ((), []) =
        (true, ((), [(0, "foo".toList, false), (1, "foo".toList, true)])) ∧
    ∃ k b, k < [literal "fo".toList, literal "foo".toList,
        (DoNot (.same (literal "baz".toList)) : Matcher Unit)].length ∧
      IsMatching (AnyOf (spies 0
          [literal "fo".toList, literal "foo".toList, DoNot (.same (literal "baz".toList))]))
        "foo".toList ((), []) =
        (b, ((IsMatching (AnyOf
            [literal "fo".toList, literal "foo".toList, DoNot (.same (literal "baz".toList))])
              "foo".toList ()).2,
          (List.range k).map (fun i => (i, "foo".toList, false)) ++ [(k, "foo".toList, b)])) ∧
      (k + 1 = [literal "fo".toList, literal "foo".toList,
        (DoNot (.same (literal "baz".toList)) : Matcher Unit)].length ∨ b = true) ∧
      (IsMatching (AnyOf
        [literal "fo".toList, literal "foo".toList, DoNot (.same (literal "baz".toList))])
          "foo".toList ()).1 = b :=
  ⟨by simp, by decide,
    AnyOf_short_circuit
      [literal "fo".toList, literal "foo".toList, DoNot (.same (literal "baz".toList))]
      (by simp) "foo".toList ()⟩

end MetaTheorems


section SimpleLemmas

variable {σ : Type}

theorem eq_iff_length_getElem? (s p : StringView) :
    s = p ↔ s.length = p.length ∧ ∀ i, i < p.length → s[i]? = p[i]? := by
  constructor
  · intro h
    subst h
    exact ⟨rfl, fun _ _ => rfl⟩
  · rintro ⟨hlen, hget⟩
    apply List.ext_getElem?
    intro i
    by_cases hi : i < p.length
    · exact hget i hi
    · rw [List.getElem?_eq_none (by omega), List.getElem?_eq_none (by omega)]

theorem size_sub_of_le (a b : Nat) (hab : b ≤ a) (ha : a < 2 ^ 64) :
    size_sub a b = a - b := by
  unfold size_sub
  rw [Nat.mod_eq_of_lt ha, Nat.mod_eq_of_lt (Nat.lt_of_le_of_lt hab ha)]
  have h : a + 2 ^ 64 - b = (a - b) + 2 ^ 64 := by omega
  rw [h, Nat.add_mod_right, Nat.mod_eq_of_lt (by omega)]

theorem size_sub_zero_le (a : Nat) : size_sub a 0 ≤ a := by
  unfold size_sub
  simp only [Nat.zero_mod, Nat.sub_zero, Nat.add_mod_right, Nat.mod_mod]
  exact Nat.mod_le a _

/-- The body of `StartsWith` always returns: the slice starts at 0. -/
theorem StartsWith_body_total (pfx s : StringView) :
    StartsWith.body pfx s = some (decide (pfx.length ≤ s.length ∧ s.take pfx.length = pfx)) := by
  unfold StartsWith.body string_view.substr
  by_cases h : pfx.length > s.length
  · simp only [h, if_true, Option.some.injEq]
    symm
    rw [decide_eq_false_iff_not]
    rintro ⟨hle, _⟩
    omega
  · have hle : pfx.length ≤ s.length := by omega
    simp [hle]

/-- The body of `EndsWith` always returns on a view shorter than `npos`. -/
theorem EndsWith_body_total (suffix s : StringView) (hs : s.length < npos) :
    EndsWith.body suffix s =
      some (decide (suffix.length ≤ s.length ∧ s.drop (s.length - suffix.length) = suffix)) := by
  have hs' : s.length < 2 ^ 64 := by
    unfold npos at hs
    omega
  unfold EndsWith.body string_view.substr
  by_cases h : suffix.length > s.length
  · simp only [h, if_true, Option.some.injEq]
    symm
    rw [decide_eq_false_iff_not]
    rintro ⟨hle, _⟩
    omega
  · have hle : suffix.length ≤ s.length := by omega
    rw [size_sub_of_le _ _ hle hs']
    have hnot : ¬ (s.length - suffix.length > s.length) := by omega
    have htake : (s.drop (s.length - suffix.length)).take suffix.length
        = s.drop (s.length - suffix.length) := by
      apply List.take_of_length_le
      simp only [List.length_drop]
      omega
    simp only [h, hnot, if_false, Option.map_some', htake, hle, true_and]

end SimpleLemmas

section SimpleTheorems

variable {σ : Type}

/--
C11. `Equals`: for all strings `s` and `p`, `IsMatching(Equals(p), s)` is true
exactly when `s` and `p` have the same length and the same character at every
index, and the state is left as it was; a string that is `p` with a non-empty
part added or removed at either end is rejected.
-/
theorem Equals_same_length_same_bytes (p s : StringView) (st : σ) :
    ((IsMatching (Equals p) s st).1 = true ↔
      s.length = p.length ∧ ∀ i, i < p.length → s[i]? = p[i]?) ∧
    (IsMatching (Equals p) s st).2 = st ∧
    (∀ t : StringView, t ≠ [] →
      (s = p ++ t ∨ s = t ++ p ∨ p = s ++ t ∨ p = t ++ s) →
      (IsMatching (Equals p) s st).1 = false) := by
  have hval : (IsMatching (Equals p) s st).1 = decide (s = p) := rfl
  refine ⟨?_, rfl, ?_⟩
  · rw [hval, decide_eq_true_iff]
    exact eq_iff_length_getElem? s p
  · intro t ht hst
    rw [hval, decide_eq_false_iff_not]
    intro h
    have hlen : t.length = 0 := by
      rcases hst with h' | h' | h' | h' <;>
        · rw [h] at h'
          have := congrArg List.length h'
          simp only [List.length_append] at this
          omega
    exact ht (List.length_eq_zero.mp hlen)

/--
C12. `StartsWith`: for all strings `s` and `pfx`, the lambda body returns without
an out-of-range slice, `IsMatching(StartsWith(pfx), s)` is true exactly when
`|s| ≥ |pfx|` and the first `|pfx|` characters of `s` are `pfx`, and when `pfx` is
longer than `s` the result is false.
-/
theorem StartsWith_leading_slice (pfx s : StringView) (st : σ) :
    (∃ b, StartsWith.body pfx s = some b) ∧
    ((IsMatching (StartsWith pfx) s st).1 = true ↔
      pfx.length ≤ s.length ∧ s.take pfx.length = pfx) ∧
    (IsMatching (StartsWith pfx) s st).2 = st ∧
    (s.length < pfx.length → IsMatching (StartsWith pfx) s st = (false, st)) := by
  have hval : IsMatching (StartsWith pfx) s st =
      (decide (pfx.length ≤ s.length ∧ s.take pfx.length = pfx), st) := by
    show ((StartsWith.body pfx s).getD false, st) = _
    rw [StartsWith_body_total]
    rfl
  refine ⟨⟨_, StartsWith_body_total pfx s⟩, ?_, ?_, ?_⟩
  · rw [hval]
    exact decide_eq_true_iff
  · rw [hval]
  · intro hlt
    rw [hval]
    congr 1
    rw [decide_eq_false_iff_not]
    rintro ⟨hle, _⟩
    omega

/--
C13. `EndsWith`: for all strings `s` (shorter than `npos`) and `suffix`, the lambda
body returns without an out-of-range slice, `IsMatching(EndsWith(suffix), s)` is
true exactly when `|s| ≥ |suffix|` and the last `|suffix|` characters of `s` are
`suffix`, and whenever the slice is taken its start index, computed in
`std::size_t`, is `|s| - |suffix|` without wrapping.
-/
theorem EndsWith_trailing_slice (suffix s : StringView) (st : σ) (hs : s.length < npos) :
    (∃ b, EndsWith.body suffix s = some b) ∧
    ((IsMatching (EndsWith suffix) s st).1 = true ↔
      suffix.length ≤ s.length ∧ s.drop (s.length - suffix.length) = suffix) ∧
    (IsMatching (EndsWith suffix) s st).2 = st ∧
    (s.length < suffix.length → IsMatching (EndsWith suffix) s st = (false, st)) ∧
    (¬ suffix.length > s.length →
      size_sub s.length suffix.length + suffix.length = s.length) := by
  have hval : IsMatching (EndsWith suffix) s st =
      (decide (suffix.length ≤ s.length ∧ s.drop (s.length - suffix.length) = suffix), st) := by
    show ((EndsWith.body suffix s).getD false, st) = _
    rw [EndsWith_body_total suffix s hs]
    rfl
  refine ⟨⟨_, EndsWith_body_total suffix s hs⟩, ?_, ?_, ?_, ?_⟩
  · rw [hval]
    exact decide_eq_true_iff
  · rw [hval]
  · intro hlt
    rw [hval]
    congr 1
    rw [decide_eq_false_iff_not]
    rintro ⟨hle, _⟩
    omega
  · intro hle
    have hs' : s.length < 2 ^ 64 := by
      unfold npos at hs
      omega
    rw [size_sub_of_le _ _ (by omega) hs']
    omega

/-- Witness of C13: `EndsWith("foo")` on `"barbazfoo"`. -/
theorem EndsWith_trailing_slice_witness :
    "barbazfoo".toList.length < npos ∧
    (IsMatching (EndsWith "foo".toList) "barbazfoo".toList ()).1 = true ∧
    ((IsMatching (EndsWith "foo".toList) "barbazfoo".toList ()).1 = true ↔
      "foo".toList.length ≤ "barbazfoo".toList.length ∧
        "barbazfoo".toList.drop ("barbazfoo".toList.length - "foo".toList.length)
          = "foo".toList) :=
  ⟨by decide, by decide,
    (EndsWith_trailing_slice "foo".toList "barbazfoo".toList () (by decide)).2.1⟩

/--
C14. Empty prefix and suffix always match: for every string `s`, the empty one
included, `IsMatching(StartsWith(""), s)` and `IsMatching(EndsWith(""), s)` are
both true, and both lambda bodies return without an out-of-range slice.
-/
theorem empty_affix_always_matches (s : StringView) (st : σ) :
    IsMatching (StartsWith []) s st = (true, st) ∧
    IsMatching (EndsWith []) s st = (true, st) ∧
    StartsWith.body [] s = some true ∧
    EndsWith.body [] s = some true := by
  have h1 : StartsWith.body [] s = some true := by
    rw [StartsWith_body_total]
    simp
  have h2 : EndsWith.body [] s = some true := by
    unfold EndsWith.body string_view.substr
    have hle : ¬ (size_sub s.length 0 > s.length) := by
      have := size_sub_zero_le s.length
      omega
    simp [hle]
  refine ⟨?_, ?_, h1, h2⟩
  · show ((StartsWith.body [] s).getD false, st) = _
    rw [h1]
    rfl
  · show ((EndsWith.body [] s).getD false, st) = _
    rw [h2]
    rfl

end SimpleTheorems

section LookupUnfold

theorem IsMatching_Contains (p : Pattern) (wh : Option Nat) (s : StringView) (mem : Mem) :
    IsMatching (Contains p wh) s mem =
      details.DoLookup
        (fun p => match p with
          | .sv v => string_view.find s v
          | .ch c => string_view.find_char s c) p wh mem := rfl

theorem IsMatching_ContainsR (p : Pattern) (wh : Option Nat) (s : StringView) (mem : Mem) :
    IsMatching (ContainsR p wh) s mem =
      details.DoLookup
        (fun p => match p with
          | .sv v => string_view.rfind s v
          | .ch c => string_view.rfind_char s c) p wh mem := rfl

theorem IsMatching_ContainsOneOf (p : Pattern) (wh : Option Nat) (s : StringView)
    (mem : Mem) :
    IsMatching (ContainsOneOf p wh) s mem =
      details.DoLookup
        (fun p => match p with
          | .sv v => string_view.find_first_of s v
          | .ch c => string_view.find_first_of_char s c) p wh mem := rfl

theorem IsMatching_ContainsOneOfR (p : Pattern) (wh : Option Nat) (s : StringView)
    (mem : Mem) :
    IsMatching (ContainsOneOfR p wh) s mem =
      details.DoLookup
        (fun p => match p with
          | .sv v => string_view.find_last_of s v
          | .ch c => string_view.find_last_of_char s c) p wh mem := rfl

end LookupUnfold

section EmptyCases

open string_view

/--
C15, as stated, fails: on the empty input `Contains("", &pos)` returns true and
writes position 0.
-/
theorem Contains_empty_pattern_matches_empty_input :
    IsMatching (Contains (.sv []) (some 0)) [] (fun _ => npos) ≠ (false, fun _ => npos) ∧
    (IsMatching (Contains (.sv []) (some 0)) [] (fun _ => npos)).1 = true ∧
    (IsMatching (Contains (.sv []) (some 0)) [] (fun _ => npos)).2 0 = 0 := by
  refine ⟨?_, by decide, by decide⟩
  intro h
  have := congrArg Prod.fst h
  revert this
  decide

/--
C15, amended. Empty input never matches a lookup matcher, except `Contains` and
`ContainsR` given the empty string: `ContainsOneOf` and `ContainsOneOfR` with any
pattern, and `Contains` and `ContainsR` with a non-empty string or a single
character, return false on the empty input and leave the memory, hence the
position, as it was; `Contains("", &pos)` and `ContainsR("", &pos)` return true
on the empty input and write position 0.
-/
theorem lookup_empty_input_no_match
    (L : Pattern → Option Nat → Matcher Mem) (p : Pattern) (wh : Option Nat) (mem : Mem)
    (h : L ∈ [ContainsOneOf, ContainsOneOfR] ∨ (L ∈ [Contains, ContainsR] ∧ p ≠ .sv [])) :
    IsMatching (L p wh) [] mem = (false, mem) ∧
    (∀ w, IsMatching (Contains (.sv []) (some w)) [] mem = (true, Function.update mem w 0) ∧
      IsMatching (ContainsR (.sv []) (some w)) [] mem = (true, Function.update mem w 0)) := by
  refine ⟨?_, fun w => ⟨?_, ?_⟩⟩
  rotate_left
  · rw [IsMatching_Contains]
    exact DoLookup_found _ (.sv []) w mem (by decide)
  · rw [IsMatching_ContainsR]
    exact DoLookup_found _ (.sv []) w mem (by decide)
  simp only [List.mem_cons, List.mem_singleton, List.mem_nil_iff, or_false] at h
  rcases h with (rfl | rfl) | ⟨rfl | rfl, hp⟩
  · rw [IsMatching_ContainsOneOf]
    apply DoLookup_not_found
    cases p <;> rfl
  · rw [IsMatching_ContainsOneOfR]
    apply DoLookup_not_found
    cases p <;> rfl
  · rw [IsMatching_Contains]
    apply DoLookup_not_found
    cases p with
    | ch c => rfl
    | sv v =>
      cases v with
      | nil => exact absurd rfl hp
      | cons c t => rfl
  · rw [IsMatching_ContainsR]
    apply DoLookup_not_found
    cases p with
    | ch c => rfl
    | sv v =>
      cases v with
      | nil => exact absurd rfl hp
      | cons c t => rfl

/-- Witness of the amended C15: `ContainsR("foo", &pos)` on the empty input. -/
theorem lookup_empty_input_no_match_witness :
    (ContainsR ∈ [ContainsOneOf, ContainsOneOfR] ∨
      (ContainsR ∈ [Contains, ContainsR] ∧ Pattern.sv "foo".toList ≠ .sv [])) ∧
    IsMatching (ContainsR (.sv "foo".toList) (some 0)) [] (fun _ => npos)
      = (false, fun _ => npos) :=
  ⟨Or.inr ⟨by simp, by simp⟩,
    (lookup_empty_input_no_match ContainsR (.sv "foo".toList) (some 0) (fun _ => npos)
      (Or.inr ⟨by simp, by simp⟩)).1⟩

/--
C16. Empty pattern for forward substring search: for every input string `s`,
`Contains("", &pos)` returns true on `s` and writes position 0, changing no other
cell.
-/
theorem Contains_empty_pattern (s : StringView) (w : Nat) (mem : Mem) :
    IsMatching (Contains (.sv []) (some w)) s mem = (true, Function.update mem w 0) := by
  have hfind : string_view.find s [] = 0 := by
    cases s <;> rfl
  have h := DoLookup_found
    (fun p => match p with
      | .sv v => string_view.find s v
      | .ch c => string_view.find_char s c) (.sv []) w mem
    (by
      show string_view.find s [] ≠ npos
      rw [hfind]
      decide)
  rw [show IsMatching (Contains (.sv []) (some w)) s mem = _ from h]
  show (true, Function.update mem w (string_view.find s [])) = _
  rw [hfind]

end EmptyCases

section TypeErasureLemmas

variable {σ : Type}

theorem PayloadInv_update (env : Boxes σ) (mf : Nat → Bool) (x : Nat) (a : AnyMatcher σ)
    (b : Bool) (hinv : PayloadInv env mf) (ha : a.m_interface.isSome = !b) :
    PayloadInv (Function.update env x (some a)) (Function.update mf x b) := by
  intro z c hz
  by_cases hzx : z = x
  · subst hzx
    simp only [Function.update_same, Option.some.injEq] at hz
    subst hz
    simpa using ha
  · simp only [Function.update_noteq hzx] at hz ⊢
    exact hinv z c hz

theorem step_PayloadInv (op : Op σ) (env env' : Boxes σ) (mf : Nat → Bool)
    (hinv : PayloadInv env mf) (hstep : step op env = some env') :
    PayloadInv env' (op.movedFrom mf) := by
  cases op with
  | defaultConstruct x =>
    simp only [step, Option.some.injEq] at hstep
    subst hstep
    exact PayloadInv_update env mf x _ false hinv rfl
  | construct x m =>
    simp only [step, Option.some.injEq] at hstep
    subst hstep
    exact PayloadInv_update env mf x _ false hinv rfl
  | copyConstruct x y =>
    simp only [step, Option.bind_eq_some, Option.map_eq_some', AnyMatcher.copy] at hstep
    obtain ⟨b, _, c, ⟨w, _, rfl⟩, rfl⟩ := hstep
    exact PayloadInv_update env mf x _ false hinv rfl
  | copyAssign x y =>
    simp only [step, Option.bind_eq_some, Option.map_eq_some', AnyMatcher.copyAssign] at hstep
    obtain ⟨a, _, b, _, c, ⟨w, _, rfl⟩, rfl⟩ := hstep
    exact PayloadInv_update env mf x _ false hinv rfl
  | moveConstruct x y =>
    by_cases hxy : x = y
    · simp [step, hxy] at hstep
    · simp only [step, hxy, if_false, Option.map_eq_some'] at hstep
      obtain ⟨b, hb, rfl⟩ := hstep
      exact PayloadInv_update _ _ x _ (mf y)
        (PayloadInv_update env mf y _ true hinv rfl) (hinv y b hb)
  | moveAssign x y =>
    simp only [step, Option.bind_eq_some, Option.map_eq_some'] at hstep
    obtain ⟨a, _, b, hb, rfl⟩ := hstep
    by_cases hxy : x = y
    · simpa [Op.movedFrom, hxy] using hinv
    · simp only [Op.movedFrom, hxy, if_false]
      exact PayloadInv_update _ _ x _ (mf y)
        (PayloadInv_update env mf y _ true hinv rfl) (hinv y b hb)
  | assign x m =>
    simp only [step, Option.map_eq_some'] at hstep
    obtain ⟨a, _, rfl⟩ := hstep
    exact PayloadInv_update env mf x _ false hinv rfl

theorem run_PayloadInv (ops : List (Op σ)) (env env' : Boxes σ) (mf : Nat → Bool)
    (hinv : PayloadInv env mf) (hrun : run ops env = some env') :
    PayloadInv env' (movedFrom ops mf) := by
  induction ops generalizing env mf with
  | nil =>
    simp only [run, Option.some.injEq] at hrun
    subst hrun
    exact hinv
  | cons op ops ih =>
    simp only [run, Option.bind_eq_some] at hrun
    obtain ⟨env1, hstep, hrest⟩ := hrun
    exact ih env1 (op.movedFrom mf) (step_PayloadInv op env env1 mf hinv hstep) hrest

end TypeErasureLemmas

section TypeErasureTheorems

variable {σ : Type}

/--
C19. A default-constructed `AnyMatcher` behaves as `NeverMatches()`: for every
string `s`, `AnyMatcher().IsMatching(s)` is defined, is false, leaves the state
as it was, and is what `IsMatching(NeverMatches(), s)` gives.
-/
theorem AnyMatcher_default_never_matches (s : StringView) (st : σ) :
    (AnyMatcher.new : AnyMatcher σ).IsMatching s st = some (false, st) ∧
    (AnyMatcher.new : AnyMatcher σ).IsMatching s st = some (IsMatching NeverMatches s st) :=
  ⟨rfl, rfl⟩

/--
C20, as stated, fails: after `AnyMatcher a; AnyMatcher b(std::move(a));` the object
`a` exists and holds nothing, and `IsMatching` on it dereferences a null pointer.
-/
theorem moved_from_AnyMatcher_holds_nothing :
    ((run [Op.defaultConstruct 0, Op.moveConstruct 1 0] (fun _ => none : Boxes Unit)).bind
      fun env => (env 0).map fun a => a.m_interface.isSome) = some false ∧
    ((run [Op.defaultConstruct 0, Op.moveConstruct 1 0] (fun _ => none : Boxes Unit)).bind
      fun env => (env 0).map fun a => (a.IsMatching "foo".toList ()).isSome) = some false :=
  ⟨rfl, rfl⟩

/--
C20, amended. Every `AnyMatcher` object reachable through any sequence of the
public operations holds a payload exactly when it is not in the moved-from
state (the source of a move, or the destination of a move from a source in that
state, not constructed or assigned since); on every object outside that state
`IsMatching` and copying are defined.
-/
theorem AnyMatcher_payload_unless_moved_from (ops : List (Op σ)) (env : Boxes σ) (x : Nat)
    (a : AnyMatcher σ) (hrun : run ops (fun _ => none) = some env) (hx : env x = some a) :
    a.m_interface.isSome = !(movedFrom ops (fun _ => false) x) ∧
    (movedFrom ops (fun _ => false) x = false →
      (∀ s st, (a.IsMatching s st).isSome = true) ∧ a.copy.isSome = true) := by
  have hinv := run_PayloadInv ops (fun _ => none) env (fun _ => false)
    (fun z c hz => by cases hz) hrun x a hx
  refine ⟨hinv, ?_⟩
  intro hmf
  rw [hmf] at hinv
  obtain ⟨w, hw⟩ := Option.isSome_iff_exists.mp hinv
  refine ⟨fun s st => ?_, ?_⟩
  · simp [AnyMatcher.IsMatching, hw]
  · simp [AnyMatcher.copy, hw]

/-- Witness of the amended C20: `AnyMatcher a; AnyMatcher b(std::move(a)); a = "x";`. -/
theorem AnyMatcher_payload_unless_moved_from_witness :
    ∃ (env : Boxes Unit) (a b : AnyMatcher Unit),
      run [Op.defaultConstruct 0, Op.moveConstruct 1 0, Op.assign 0 (literal "x".toList)]
        (fun _ => none) = some env ∧
      env 0 = some a ∧ env 1 = some b ∧
      a.m_interface.isSome = true ∧ b.m_interface.isSome = true ∧
      (b.m_interface.isSome =
          !(movedFrom [Op.defaultConstruct 0, Op.moveConstruct 1 0,
            Op.assign 0 (literal "x".toList : Matcher Unit)] (fun _ => false) 1) ∧
        (movedFrom [Op.defaultConstruct 0, Op.moveConstruct 1 0,
            Op.assign 0 (literal "x".toList : Matcher Unit)] (fun _ => false) 1 = false →
          (∀ s st, (b.IsMatching s st).isSome = true) ∧ b.copy.isSome = true)) :=
  ⟨_, _, _, rfl, rfl, rfl, rfl, rfl,
    AnyMatcher_payload_unless_moved_from
      [Op.defaultConstruct 0, Op.moveConstruct 1 0, Op.assign 0 (literal "x".toList)]
      _ 1 _ rfl rfl⟩

end TypeErasureTheorems

section LvalueAndArity

variable {σ : Type}

/--
C21 on the code: a box built from the `std::string` variable `v` holding `"baz"`
matches `"baz"`; once `v` is assigned `"foo"` the same box, built by construction
or by assignment, no longer matches `"baz"` and matches `"foo"`, whereas a copy of
the value `v` had would still match `"baz"`.
-/
theorem AnyMatcher_from_lvalue_follows_variable :
    ((AnyMatcher.ofMatcher (stringRef 0)).IsMatching "baz".toList
      (fun _ => "baz".toList)).map Prod.fst = some true ∧
    ((AnyMatcher.ofMatcher (stringRef 0)).IsMatching "baz".toList
      (Function.update (fun _ => "baz".toList) 0 "foo".toList)).map Prod.fst = some false ∧
    ((AnyMatcher.ofMatcher (stringRef 0)).IsMatching "foo".toList
      (Function.update (fun _ => "baz".toList) 0 "foo".toList)).map Prod.fst = some true ∧
    (((AnyMatcher.new : AnyMatcher Strings).assign (stringRef 0)).IsMatching "baz".toList
      (Function.update (fun _ => "baz".toList) 0 "foo".toList)).map Prod.fst = some false ∧
    ((AnyMatcher.ofMatcher (literal "baz".toList)).IsMatching "baz".toList
      (Function.update (fun _ => "baz".toList : Strings) 0 "foo".toList)).map Prod.fst
        = some true := by
  refine ⟨by decide, by decide, by decide, by decide, by decide⟩

/--
C22 on the code: `AllOf()` and `AnyOf()` with no child are matcher values that can
be evaluated; on every string the first returns true and the second false,
without touching the state.
-/
theorem AllOf_AnyOf_without_children (s : StringView) (st : σ) :
    IsMatching (AllOf ([] : List (Matcher σ))) s st = (true, st) ∧
    IsMatching (AnyOf ([] : List (Matcher σ))) s st = (false, st) ∧
    MatcherTraits.is_valid (AllOf ([] : List (Matcher σ))) = true ∧
    MatcherTraits.is_valid (AnyOf ([] : List (Matcher σ))) = true :=
  ⟨rfl, rfl, rfl, rfl⟩

end LvalueAndArity

section SwitchLemmas

variable {σ ResultType : Type}

theorem Case_recorded (input : StringView) (r : ResultType) (m : Matcher σ)
    (value : ResultType) (st : σ) :
    SwitchStr.Case ⟨input, some r⟩ m value st = (⟨input, some r⟩, st) := rfl

theorem foldl_Case_recorded (input : StringView) (r : ResultType)
    (cases : List (Matcher σ × ResultType)) (st : σ) :
    cases.foldl (fun acc c => acc.1.Case c.1 c.2 acc.2)
      ((⟨input, some r⟩ : SwitchStr ResultType), st) = (⟨input, some r⟩, st) := by
  induction cases with
  | nil => rfl
  | cons c rest ih => simpa [List.foldl_cons, Case_recorded] using ih

theorem Cases_cons_true (input : StringView) (c : Matcher σ × ResultType)
    (rest : List (Matcher σ × ResultType)) (st : σ)
    (h : (IsMatching c.1 input st).1 = true) :
    SwitchStr.Cases input (c :: rest) st = (⟨input, some c.2⟩, (IsMatching c.1 input st).2) := by
  simp only [SwitchStr.Cases, List.foldl_cons, SwitchStr.new, SwitchStr.Case,
    Option.isSome_none, Bool.not_false, if_true, h]
  exact foldl_Case_recorded input c.2 rest _

theorem Cases_cons_false (input : StringView) (c : Matcher σ × ResultType)
    (rest : List (Matcher σ × ResultType)) (st : σ)
    (h : (IsMatching c.1 input st).1 = false) :
    SwitchStr.Cases input (c :: rest) st
      = SwitchStr.Cases input rest (IsMatching c.1 input st).2 := by
  simp only [SwitchStr.Cases, List.foldl_cons, SwitchStr.new, SwitchStr.Case,
    Option.isSome_none, Bool.not_false, if_true, h, Bool.false_eq_true, if_false]

end SwitchLemmas

section SwitchTheorems

variable {σ ResultType : Type}

/--
C23. `SwitchStr` is first-match-wins. The matchers are evaluated on the input in
the order of the `Case` calls, each in the state the earlier evaluations left.
If case `k` is the first whose matcher returns true, `Default(d)` returns `v_k`,
whatever the later cases are; if no matcher returns true, and in particular with
no `Case` at all, `Default(d)` returns `d`.
-/
theorem SwitchStr_first_match_wins (input : StringView)
    (cases : List (Matcher σ × ResultType)) (d : ResultType) (st : σ) :
    (∀ k mk vk, cases[k]? = some (mk, vk) →
      (∀ j mj vj, j < k → cases[j]? = some (mj, vj) →
        (IsMatching mj input
          ((cases.take j).foldl (fun s c => (IsMatching c.1 input s).2) st)).1 = false) →
      (IsMatching mk input
        ((cases.take k).foldl (fun s c => (IsMatching c.1 input s).2) st)).1 = true →
      (SwitchStr.Cases input cases st).1.Default d = vk) ∧
    ((∀ j mj vj, cases[j]? = some (mj, vj) →
        (IsMatching mj input
          ((cases.take j).foldl (fun s c => (IsMatching c.1 input s).2) st)).1 = false) →
      (SwitchStr.Cases input cases st).1.Default d = d) ∧
    (SwitchStr.new input : SwitchStr ResultType).Default d = d := by
  refine ⟨?_, ?_, rfl⟩
  · induction cases generalizing st with
    | nil =>
      intro k mk vk hk
      simp at hk
    | cons c rest ih =>
      intro k mk vk hk hbefore hmatch
      cases k with
      | zero =>
        simp only [List.getElem?_cons_zero, Option.some.injEq] at hk
        subst hk
        simp only [List.take_zero, List.foldl_nil] at hmatch
        rw [Cases_cons_true input (mk, vk) rest st hmatch]
        rfl
      | succ k =>
        have h0 : (IsMatching c.1 input st).1 = false := by
          have := hbefore 0 c.1 c.2 (Nat.succ_pos k) (by simp)
          simpa using this
        rw [Cases_cons_false input c rest st h0]
        apply ih (IsMatching c.1 input st).2 k mk vk
        · simpa using hk
        · intro j mj vj hj hget
          have := hbefore (j + 1) mj vj (by omega) (by simpa using hget)
          simpa using this
        · simpa using hmatch
  · induction cases generalizing st with
    | nil =>
      intro _
      rfl
    | cons c rest ih =>
      intro hnone
      have h0 : (IsMatching c.1 input st).1 = false := by
        have := hnone 0 c.1 c.2 (by simp)
        simpa using this
      rw [Cases_cons_false input c rest st h0]
      apply ih (IsMatching c.1 input st).2
      intro j mj vj hget
      have := hnone (j + 1) mj vj (by simpa using hget)
      simpa using this

/--
Witness of C23: `SwitchStr("Ceci est un string").Case(Contains("foo", &pos), 0)
.Case(Contains("est", &pos), 1).Default(42)` returns 1 and leaves 5 in `pos`.
-/
theorem SwitchStr_first_match_wins_witness :
    (SwitchStr.Cases "Ceci est un string".toList
      [(Contains (.sv "foo".toList) (some 0), 0), (Contains (.sv "est".toList) (some 0), 1)]
      (fun _ => npos)).1.Default 42 = 1 ∧
    (SwitchStr.Cases "Ceci est un string".toList
      [(Contains (.sv "foo".toList) (some 0), 0), (Contains (.sv "est".toList) (some 0), 1)]
      (fun _ => npos)).2 0 = 5 :=
  ⟨(SwitchStr_first_match_wins "Ceci est un string".toList
      [(Contains (.sv "foo".toList) (some 0), 0), (Contains (.sv "est".toList) (some 0), 1)]
      42 (fun _ => npos)).1 1 (Contains (.sv "est".toList) (some 0)) 1 rfl
      (by
        intro j mj vj hj hget
        have hj0 : j = 0 := by omega
        subst hj0
        simp only [List.getElem?_cons_zero, Option.some.injEq, Prod.mk.injEq] at hget
        obtain ⟨rfl, _⟩ := hget
        decide)
      (by decide),
    by decide⟩

/--
C24, as stated, fails: on a `SwitchStr` over `"foo"` that already holds a result, a
further `Case(Contains('o', &pos), 1)` leaves `pos` at its initial `npos`, although
the matcher evaluated on `"foo"` returns true and writes 1.
-/
theorem Case_after_result_skips_matcher :
    (SwitchStr.Case ⟨"foo".toList, some 0⟩ (Contains (.ch 'o') (some 1)) 1
      (fun _ => npos)).2 1 = npos ∧
    (SwitchStr.Cases "foo".toList
      [(Contains (.sv "foo".toList) (some 0), 0), (Contains (.ch 'o') (some 1), 1)]
      (fun _ => npos)).2 1 = npos ∧
    (IsMatching (Contains (.ch 'o') (some 1)) "foo".toList (fun _ => npos)).1 = true ∧
    (IsMatching (Contains (.ch 'o') (some 1)) "foo".toList (fun _ => npos)).2 1 = 1 := by
  refine ⟨by decide, by decide, by decide, by decide⟩

/--
C24, amended. On a `SwitchStr` that already holds a result, a further `Case(m, v)`
call does not evaluate `m`: the result, the state and the call log are left as
they were, so a lookup matcher writes no position. On a `SwitchStr` without a
result, `Case(m, v)` evaluates `m` exactly once on the input.
-/
theorem Case_after_result_is_no_op (input : StringView) (r value : ResultType)
    (m : Matcher σ) (st : σ) :
    SwitchStr.Case ⟨input, some r⟩ m value st = (⟨input, some r⟩, st) ∧
    SwitchStr.Case ⟨input, some r⟩ (spy 0 m) value (st, []) = (⟨input, some r⟩, (st, [])) ∧
    (SwitchStr.Case ⟨input, none⟩ (spy 0 m) value (st, [])).2 =
      ((IsMatching m input st).2, [(0, input, (IsMatching m input st).1)]) := by
  refine ⟨rfl, rfl, ?_⟩
  cases h : (IsMatching m input st).1 <;>
    simp [SwitchStr.Case, IsMatching_spy, h]

end SwitchTheorems

section RelationLemmas

open string_view

variable {σ : Type}

/-- A lookup reports true and leaves `j` in the cell exactly when the search returned `j`, not `npos`. -/
theorem DoLookup_true_at_iff (f : Pattern → Nat) (pat : Pattern) (w : Nat) (mem : Mem)
    (j : Nat) :
    ((details.DoLookup f pat (some w) mem).1 = true ∧
      (details.DoLookup f pat (some w) mem).2 w = j) ↔ (f pat = j ∧ j ≠ npos) := by
  by_cases h : f pat = npos
  · rw [DoLookup_not_found f pat (some w) mem h]
    constructor
    · rintro ⟨h1, _⟩
      cases h1
    · rintro ⟨h1, h2⟩
      exact absurd (h1.symm.trans h) h2
  · rw [DoLookup_found f pat w mem h]
    simp only [Function.update_same, true_and]
    constructor
    · intro h1
      exact ⟨h1, h1 ▸ h⟩
    · intro h1
      exact h1.1

theorem IsMatching_StartsWith_fst (p s : StringView) (st : σ) :
    (IsMatching (StartsWith p) s st).1
      = decide (p.length ≤ s.length ∧ s.take p.length = p) := by
  show (StartsWith.body p s).getD false = _
  rw [StartsWith_body_total]
  rfl

theorem IsMatching_EndsWith_fst (p s : StringView) (st : σ) (hs : s.length < npos) :
    (IsMatching (EndsWith p) s st).1
      = decide (p.length ≤ s.length ∧ s.drop (s.length - p.length) = p) := by
  show (EndsWith.body p s).getD false = _
  rw [EndsWith_body_total p s hs]
  rfl

theorem find_eq_zero_iff (s p : StringView) :
    string_view.find s p = 0 ↔ (p.length ≤ s.length ∧ s.take p.length = p) := by
  have hocc := isPrefixOf_drop_iff p s 0
  simp only [Nat.zero_le, List.drop_zero, true_and, Nat.zero_add] at hocc
  unfold string_view.find
  cases hfp : firstPos (fun r => p.isPrefixOf r) s with
  | none =>
    have h0 := (firstPos_eq_none_iff _ s).mp hfp 0 (Nat.zero_le _)
    simp only [List.drop_zero] at h0
    simp only [Option.getD_none]
    constructor
    · intro h
      exact absurd h (by decide)
    · intro h
      rw [hocc.mpr h] at h0
      cases h0
  | some j =>
    obtain ⟨_, hq, hmin⟩ := (firstPos_eq_some_iff _ s j).mp hfp
    simp only [Option.getD_some]
    constructor
    · intro h
      subst h
      exact hocc.mp (by simpa using hq)
    · intro h
      by_contra hj
      have := hmin 0 (Nat.pos_of_ne_zero hj)
      simp only [List.drop_zero] at this
      rw [hocc.mpr h] at this
      cases this

theorem find_nil (s : StringView) : string_view.find s [] = 0 :=
  (find_eq_zero_iff s []).mpr ⟨Nat.zero_le _, rfl⟩

theorem rfind_nil (s : StringView) : string_view.rfind s [] = s.length := by
  unfold string_view.rfind
  have h : lastPos (fun r => ([] : StringView).isPrefixOf r) s = some s.length := by
    rw [lastPos_eq_some_iff]
    refine ⟨Nat.le_refl _, by simp, ?_⟩
    intro k hk hle
    omega
  rw [h]
  rfl

theorem rfind_eq_end_iff (s p : StringView) (hs : s.length < npos) :
    (string_view.rfind s p = s.length - p.length ∧ s.length - p.length ≠ npos) ↔
      (p.length ≤ s.length ∧ s.drop (s.length - p.length) = p) := by
  unfold string_view.rfind
  constructor
  · rintro ⟨hr, hne⟩
    cases hlp : lastPos (fun r => p.isPrefixOf r) s with
    | none =>
      rw [hlp] at hr
      exact absurd hr.symm hne
    | some j =>
      rw [hlp] at hr
      simp only [Option.getD_some] at hr
      subst hr
      obtain ⟨hj, hq, _⟩ := (lastPos_eq_some_iff _ s _).mp hlp
      obtain ⟨hlen, htake⟩ := (isPrefixOf_drop_iff p s _).mp ⟨hj, hq⟩
      refine ⟨by omega, ?_⟩
      have hfull : (s.drop (s.length - p.length)).take p.length
          = s.drop (s.length - p.length) := by
        apply List.take_of_length_le
        simp only [List.length_drop]
        omega
      rw [hfull] at htake
      exact htake
  · rintro ⟨hle, hdrop⟩
    have hlp : lastPos (fun r => p.isPrefixOf r) s = some (s.length - p.length) := by
      rw [lastPos_eq_some_iff]
      refine ⟨Nat.sub_le _ _, ?_, ?_⟩
      · simp only [hdrop]
        exact List.isPrefixOf_iff_prefix.mpr (List.prefix_refl p)
      · intro k hk hkle
        by_contra hq
        have hq' : p.isPrefixOf (s.drop k) = true := by simpa using hq
        have := ((isPrefixOf_drop_iff p s k).mp ⟨hkle, hq'⟩).1
        omega
    rw [hlp]
    refine ⟨rfl, ?_⟩
    have := Nat.sub_le s.length p.length
    omega

theorem startsWithOneOf_singleton (c : Char) (r : StringView) :
    startsWithOneOf [c] r = [c].isPrefixOf r := by
  cases r with
  | nil => rfl
  | cons a t =>
    simp only [startsWithOneOf, List.contains, List.elem, List.isPrefixOf]
    by_cases h : a = c
    · subst h
      simp
    · have e1 : (a == c) = false := by simpa using h
      have e2 : (c == a) = false := by simpa using fun e : c = a => h e.symm
      rw [e1, e2]
      rfl

theorem find_first_of_singleton (s : StringView) (c : Char) :
    string_view.find_first_of s [c] = string_view.find_char s c := by
  unfold string_view.find_first_of string_view.find_char string_view.find
  rw [show startsWithOneOf [c] = (fun r => [c].isPrefixOf r) from
    funext (startsWithOneOf_singleton c)]

theorem find_last_of_singleton (s : StringView) (c : Char) :
    string_view.find_last_of s [c] = string_view.rfind_char s c := by
  unfold string_view.find_last_of string_view.rfind_char string_view.rfind
  rw [show startsWithOneOf [c] = (fun r => [c].isPrefixOf r) from
    funext (startsWithOneOf_singleton c)]

end RelationLemmas

section RelationTheorems

open string_view

variable {σ : Type}

/--
C25. Prefix is a match at index 0: for all strings `s` and `p`,
`IsMatching(StartsWith(p), s)` is true exactly when `Contains(p, &pos)` returns
true on `s` and leaves 0 in `pos`.
-/
theorem StartsWith_iff_Contains_at_zero (p s : StringView) (st : σ) (w : Nat) (mem : Mem) :
    (IsMatching (StartsWith p) s st).1 = true ↔
      ((IsMatching (Contains (.sv p) (some w)) s mem).1 = true ∧
        (IsMatching (Contains (.sv p) (some w)) s mem).2 w = 0) := by
  rw [IsMatching_StartsWith_fst, decide_eq_true_iff, IsMatching_Contains,
    DoLookup_true_at_iff]
  show _ ↔ (string_view.find s p = 0 ∧ 0 ≠ npos)
  rw [find_eq_zero_iff]
  constructor
  · intro h
    exact ⟨h, by decide⟩
  · intro h
    exact h.1

/--
C26. Suffix is the last match at index `|s| - |p|`: for all strings `s` (shorter
than `npos`) and `p`, `IsMatching(EndsWith(p), s)` is true exactly when
`ContainsR(p, &pos)` returns true on `s` and leaves `|s| - |p|` in `pos`.
-/
theorem EndsWith_iff_ContainsR_at_end (p s : StringView) (st : σ) (w : Nat) (mem : Mem)
    (hs : s.length < npos) :
    (IsMatching (EndsWith p) s st).1 = true ↔
      ((IsMatching (ContainsR (.sv p) (some w)) s mem).1 = true ∧
        (IsMatching (ContainsR (.sv p) (some w)) s mem).2 w = s.length - p.length) := by
  rw [IsMatching_EndsWith_fst p s st hs, decide_eq_true_iff, IsMatching_ContainsR,
    DoLookup_true_at_iff]
  show _ ↔ (string_view.rfind s p = s.length - p.length ∧ s.length - p.length ≠ npos)
  rw [rfind_eq_end_iff s p hs]

/-- Witness of C26: `EndsWith("foo")` and `ContainsR("foo", &pos)` on `"barbazfoo"`. -/
theorem EndsWith_iff_ContainsR_at_end_witness :
    "barbazfoo".toList.length < npos ∧
    (IsMatching (ContainsR (.sv "foo".toList) (some 0)) "barbazfoo".toList
      (fun _ => npos)).2 0 = 6 ∧
    ((IsMatching (EndsWith "foo".toList) "barbazfoo".toList ()).1 = true ↔
      ((IsMatching (ContainsR (.sv "foo".toList) (some 0)) "barbazfoo".toList
          (fun _ => npos)).1 = true ∧
        (IsMatching (ContainsR (.sv "foo".toList) (some 0)) "barbazfoo".toList
          (fun _ => npos)).2 0 = "barbazfoo".toList.length - "foo".toList.length)) :=
  ⟨by decide, by decide,
    EndsWith_iff_ContainsR_at_end "foo".toList "barbazfoo".toList () 0 (fun _ => npos)
      (by decide)⟩

/--
C27. Substring and character-set lookups coincide on a single-character pattern:
for every character `c`, string `s`, position pointer (null or not) and memory,
`Contains(c, where)` and `ContainsOneOf(c, where)` return the same boolean and
leave the same memory, and so do `ContainsR(c, where)` and
`ContainsOneOfR(c, where)`; the character-set lookups given the one-character
string `c` agree with them as well.
-/
theorem single_char_lookups_coincide (c : Char) (s : StringView) (wh : Option Nat)
    (mem : Mem) :
    IsMatching (Contains (.ch c) wh) s mem = IsMatching (ContainsOneOf (.ch c) wh) s mem ∧
    IsMatching (ContainsR (.ch c) wh) s mem = IsMatching (ContainsOneOfR (.ch c) wh) s mem ∧
    IsMatching (ContainsOneOf (.sv [c]) wh) s mem = IsMatching (Contains (.ch c) wh) s mem ∧
    IsMatching (ContainsOneOfR (.sv [c]) wh) s mem
      = IsMatching (ContainsR (.ch c) wh) s mem := by
  refine ⟨rfl, rfl, ?_, ?_⟩
  · rw [IsMatching_ContainsOneOf, IsMatching_Contains]
    simp only [details.DoLookup, find_first_of_singleton]
  · rw [IsMatching_ContainsOneOfR, IsMatching_ContainsR]
    simp only [details.DoLookup, find_last_of_singleton]

/--
C28. Empty pattern for reverse substring search: for every input string `s`
(shorter than `npos`), `ContainsR("", &pos)` returns true on `s` and writes
`|s|` into `pos`, changing no other cell; on a non-empty `s` that differs from
the 0 that `Contains("", &pos)` writes.
-/
theorem ContainsR_empty_pattern (s : StringView) (w : Nat) (mem : Mem)
    (hs : s.length < npos) :
    IsMatching (ContainsR (.sv []) (some w)) s mem
      = (true, Function.update mem w s.length) ∧
    (s ≠ [] →
      (IsMatching (ContainsR (.sv []) (some w)) s mem).2 w
        ≠ (IsMatching (Contains (.sv []) (some w)) s mem).2 w) := by
  have hR : IsMatching (ContainsR (.sv []) (some w)) s mem
      = (true, Function.update mem w s.length) := by
    rw [IsMatching_ContainsR]
    have h := DoLookup_found
      (fun p => match p with
        | .sv v => string_view.rfind s v
        | .ch c => string_view.rfind_char s c) (.sv []) w mem
      (by
        show string_view.rfind s [] ≠ npos
        rw [rfind_nil]
        omega)
    rw [h]
    show (true, Function.update mem w (string_view.rfind s [])) = _
    rw [rfind_nil]
  have hF : IsMatching (Contains (.sv []) (some w)) s mem
      = (true, Function.update mem w 0) := by
    rw [IsMatching_Contains]
    have h := DoLookup_found
      (fun p => match p with
        | .sv v => string_view.find s v
        | .ch c => string_view.find_char s c) (.sv []) w mem
      (by
        show string_view.find s [] ≠ npos
        rw [find_nil]
        decide)
    rw [h]
    show (true, Function.update mem w (string_view.find s [])) = _
    rw [find_nil]
  refine ⟨hR, ?_⟩
  intro hne
  rw [hR, hF]
  simp only [Function.update_same]
  exact fun h => hne (List.length_eq_zero.mp h)

/-- Witness of C28: `ContainsR("", &pos)` on `"foo"` writes 3. -/
theorem ContainsR_empty_pattern_witness :
    "foo".toList.length < npos ∧
    (IsMatching (ContainsR (.sv []) (some 0)) "foo".toList (fun _ => npos)).2 0 = 3 ∧
    (IsMatching (Contains (.sv []) (some 0)) "foo".toList (fun _ => npos)).2 0 = 0 ∧
    IsMatching (ContainsR (.sv []) (some 0)) "foo".toList (fun _ => npos)
      = (true, Function.update (fun _ => npos) 0 "foo".toList.length) :=
  ⟨by decide, by decide, by decide,
    (ContainsR_empty_pattern "foo".toList 0 (fun _ => npos) (by decide)).1⟩

end RelationTheorems

end swstr
